import Mathlib

/-!
Verification development for the incremental slicing-and-elaboration driver
(`script.py`) and its companions (`chart.py`, `slice_to_json.py`).

File contents are modelled as lists of characters (`Str`); the driver only
ever writes UTF-8 text, and all reads in the modelled paths decode with
`errors="ignore"`, so bytes and characters coincide on the contents the
claims quantify over.  Fallible Python code is modelled with `Except`/`Option`
(an `Except.error` result models an uncaught Python exception).  Where the
source loops with `while`, the model uses a fuel parameter chosen (and, where
a claim needs it, proved) large enough that the fuel never runs out on the
inputs the source can reach; this keeps every definition executable.
-/

/-- File contents / Python strings are modelled as lists of characters. -/
abbrev Str := List Char

/-- Decimal digit test, models `\d` of Python regexes and JSON digits. -/
def isDigit10 (c : Char) : Bool := 48 ≤ c.toNat && c.toNat ≤ 57

/-- Whitespace as recognised by Python regex `\s` (ASCII part; the inputs the
claims touch are ASCII). -/
def isWsRe (c : Char) : Bool :=
  c = ' ' || c = '\t' || c = '\n' || c = '\r' || c = Char.ofNat 12 || c = Char.ofNat 11

/-- Whitespace as recognised by the JSON grammar (`json.load`). -/
def isWsJ (c : Char) : Bool := c = ' ' || c = '\t' || c = '\n' || c = '\r'

/-- The character for the decimal digit `n` (defined by cases so that proofs
about it can proceed by `interval_cases`). -/
def digitChar (n : Nat) : Char :=
  match n with
  | 0 => '0' | 1 => '1' | 2 => '2' | 3 => '3' | 4 => '4'
  | 5 => '5' | 6 => '6' | 7 => '7' | 8 => '8' | _ => '9'

/-- Fuel-driven decimal printing helper; the fuel is always called with at
least `n + 1`, which is enough because the argument shrinks by a factor of
ten each step. -/
def natDigitsAux : Nat → Nat → Str
  | 0, _ => []
  | f + 1, n => if n < 10 then [digitChar n] else natDigitsAux f (n / 10) ++ [digitChar (n % 10)]

/-- Decimal representation of a natural number, models Python integer
formatting (`repr` of a nonnegative `int`). -/
def natDigits (n : Nat) : Str := natDigitsAux (n + 1) n

/-- Numeric value of a list of decimal digits. -/
def digitsToNat (ds : Str) : Nat := ds.foldl (fun a c => 10 * a + (c.toNat - 48)) 0

/-- Indentation produced by `json.dumps(..., indent=2)` at nesting level `n`. -/
def pad (n : Nat) : Str := List.replicate (2 * n) ' '

/-- Boolean test whether a list starts with a given prefix. -/
def startsWithL : Str → Str → Bool
  | [], _ => true
  | _ :: _, [] => false
  | a :: as, b :: bs => a = b && startsWithL as bs

/-- Boolean head test. -/
def headIs (c : Char) : Str → Bool
  | [] => false
  | x :: _ => x = c

/-- Substring containment, models Python `needle in haystack` for a nonempty
needle. -/
def containsSub (p : Str) : Str → Bool
  | [] => p.isEmpty
  | c :: rest => startsWithL p (c :: rest) || containsSub p rest

/-- Fuel-driven non-overlapping substring count; fuel is called with
`hay.length + 1`, enough because each step consumes at least one character. -/
def countSubAux : Nat → Str → Str → Nat
  | 0, _, _ => 0
  | _ + 1, _, [] => 0
  | f + 1, p, c :: rest =>
    if startsWithL p (c :: rest) then 1 + countSubAux f p ((c :: rest).drop p.length)
    else countSubAux f p rest

/-- Non-overlapping substring count, models Python `str.count` for a nonempty
pattern. -/
def countSub (p hay : Str) : Nat := countSubAux (hay.length + 1) p hay

/-- Index of the last occurrence of `c` in a list (`str.rfind`, with `none`
for Python's `-1`). -/
def rfindIdx (c : Char) : Str → Option Nat
  | [] => none
  | x :: xs =>
    match rfindIdx c xs with
    | some i => some (i + 1)
    | none => if x = c then some 0 else none

/-- Overwrite-in-place at offset `p` without truncation: models
`f.seek(p); f.write(t)` on a file whose contents are `s`. -/
def spliceAt (s : Str) (p : Nat) (t : Str) : Str :=
  s.take p ++ t ++ s.drop (p + t.length)

/-! ## Hole scanning (`script.py` lines 13-45, `slice_to_json.py`) -/

/-- The hole marker literal `TRUST_THEORY_REWRITE`. -/
def holeMarker : Str := "TRUST_THEORY_REWRITE".toList

/-- Characters allowed in a step name: the regex class of
`STEP_NAME_RE`, every character that is neither whitespace nor a closing
parenthesis. -/
def stepNameChar (c : Char) : Bool := !isWsRe c && c != ')'

/-- Model of `STEP_NAME_RE.search(line).group(1)` where
`STEP_NAME_RE = r"\(step\s+([^\s\)]+)"`: scan for the leftmost position with
the literal prefix, at least one whitespace character, and a nonempty maximal
run of name characters; otherwise shift one character and retry, exactly as
the regex engine's search does (no shorter `\s+` match can succeed because
the capture class excludes whitespace). -/
def stepCapture : Str → Option Str
  | [] => none
  | c :: r =>
    let here := (c :: r)
    if startsWithL ("(step".toList) here then
      let after := here.drop 5
      let w := after.takeWhile isWsRe
      let body := (after.dropWhile isWsRe).takeWhile stepNameChar
      if !w.isEmpty && !body.isEmpty then some body else stepCapture r
    else stepCapture r

/-- One line's candidate hole name: the marker must occur in the line, then
the step-name regex is searched (`script.py` lines 31-34). -/
def holeOfLine (line : Str) : Option Str :=
  if containsSub holeMarker line then stepCapture line else none

/-- The raw `(name, lineno)` list collected by `holes_in_alethe` before
deduplication: dotted names are skipped (`continue`), line numbers start
at 1 (`script.py` lines 29-38). -/
def extractAux (k : Nat) : List Str → List (Str × Nat)
  | [] => []
  | l :: ls =>
    match holeOfLine l with
    | some n => if '.' ∈ n then extractAux (k + 1) ls else (n, k) :: extractAux (k + 1) ls
    | none => extractAux (k + 1) ls

/-- All undotted holes of a certificate with their line numbers. -/
def extractHoles (lines : List Str) : List (Str × Nat) := extractAux 1 lines

/-- First-occurrence deduplication by name with an accumulated `seen` set
(`script.py` lines 39-44). -/
def dedupAux (seen : List Str) : List (Str × Nat) → List (Str × Nat)
  | [] => []
  | p :: rest => if p.1 ∈ seen then dedupAux seen rest else p :: dedupAux (p.1 :: seen) rest

/-- Model of `holes_in_alethe` on the decoded lines of a certificate file. -/
def holes_in_alethe (lines : List Str) : List (Str × Nat) := dedupAux [] (extractHoles lines)

/-- Running `holes_in_alethe` on a file: `read_file_lines` opens the file with
no exception handling, so an unreadable file (`none`) propagates the error;
a readable file yields its decoded lines (decoding uses `errors="ignore"`,
so it never raises). -/
def holes_in_alethe_run (file : Option (List Str)) : Except Unit (List (Str × Nat)) :=
  match file with
  | none => Except.error ()
  | some lines => Except.ok (holes_in_alethe lines)

/-- The per-file extraction of `slice_to_json.py` (lines 20-35): same marker
and regex, but no dotted-name filter and no deduplication, and the whole
per-file read is wrapped in `try ... except: continue`, so an unreadable
file contributes no records. -/
def scanFileRecords (file : Option (List Str)) : List (Str × Nat) :=
  match file with
  | none => []
  | some lines => scanAllAux 1 lines
where
  scanAllAux (k : Nat) : List Str → List (Str × Nat)
    | [] => []
    | l :: ls =>
      match holeOfLine l with
      | some n => (n, k) :: scanAllAux (k + 1) ls
      | none => scanAllAux (k + 1) ls

/-- The concrete certificate of the hole-dedup test property: marker
occurrences for `h1`, `h1.sub`, `h1`, `h2` on lines 1-4. -/
def demoCert : List Str :=
  ["(step h1 TRUST_THEORY_REWRITE)".toList,
   "(step h1.sub TRUST_THEORY_REWRITE)".toList,
   "(step h1 TRUST_THEORY_REWRITE)".toList,
   "(step h2 TRUST_THEORY_REWRITE)".toList]

/-! ## Elapsed-time formatting (`script.py` lines 15-22) and parsing
(`chart.py` lines 49-69) -/

/-- Round-half-to-even division, the rounding used by Python float formatting
at exactly representable values. -/
def divRoundHalfEven (num den : Nat) : Nat :=
  let q := num / den
  let r := num % den
  if 2 * r < den then q
  else if den < 2 * r then q + 1
  else if q % 2 = 0 then q else q + 1

/-- Zero padding on the left to width `d`. -/
def padZeros (d : Nat) (s : Str) : Str := List.replicate (d - s.length) '0' ++ s

/-- Model of the Python fixed-point format `f"{num/den:.Df}"` for nonnegative
operands, using exact rational rounding.  Python formats the IEEE double
`num/den`; at every input appearing in the claims the quotient is exactly
representable, where the two agree.  With `d = 0` no decimal point is
printed, matching `"%.0f"`. -/
def fmtFixed (num den d : Nat) : Str :=
  let scaled := divRoundHalfEven (num * 10 ^ d) den
  if d = 0 then natDigits scaled
  else natDigits (scaled / 10 ^ d) ++ '.' :: padZeros d (natDigits (scaled % 10 ^ d))

/-- Model of `human_elapsed` (`script.py` lines 15-22). -/
def human_elapsed (ns : Nat) : Str :=
  if ns < 1000000 then natDigits ns ++ "ns".toList
  else if ns < 1000000000 then fmtFixed ns 1000000 0 ++ "ms".toList
  else if ns < 60000000000 then fmtFixed ns 1000000000 2 ++ "s".toList
  else fmtFixed ns 60000000000 2 ++ "m".toList

/-- ASCII lower-casing of one character; models `str.lower` on the ASCII
strings the elapsed format produces. -/
def toLowerChar (c : Char) : Char :=
  if 65 ≤ c.toNat ∧ c.toNat ≤ 90 then Char.ofNat (c.toNat + 32) else c

/-- Lower-casing of a string. -/
def toLowerStr (s : Str) : Str := s.map toLowerChar

/-- Model of `str.strip()`. -/
def stripStr (s : Str) : Str :=
  ((s.dropWhile isWsRe).reverse.dropWhile isWsRe).reverse

/-- Tail of the unit parse: the remaining characters must all be whitespace
(the regex trailer `\s*$`). -/
def allWsRe (s : Str) : Bool := s.all isWsRe

/-- Model of `parse_elapsed_to_seconds` (`chart.py` lines 49-69) on string
input: strip and lower-case, then match
`^\s*(\d+(\.\d+)?)(ns|ms|s|m)\s*$` and convert by the unit.  The numeric
result is an exact rational (the Python code produces a float; every matched
value is finite and not NaN, which the `Rat` codomain makes structural). -/
def parse_elapsed_to_seconds (cs : Str) : Option Rat :=
  let s0 := toLowerStr (stripStr cs)
  let s1 := s0.dropWhile isWsRe
  let d1 := s1.takeWhile isDigit10
  let r1 := s1.dropWhile isDigit10
  if d1.isEmpty then none
  else if headIs '.' r1 then
    let d2 := r1.tail.takeWhile isDigit10
    if d2.isEmpty then none
    else unitOf ((digitsToNat d1 : Rat) + (digitsToNat d2 : Rat) / ((10 : Rat) ^ d2.length))
      (r1.tail.dropWhile isDigit10)
  else unitOf ((digitsToNat d1 : Rat)) r1
where
  unitOf (q : Rat) (rest : Str) : Option Rat :=
    if startsWithL ("ns".toList) rest && allWsRe (rest.drop 2) then some (q / 1000000000)
    else if startsWithL ("ms".toList) rest && allWsRe (rest.drop 2) then some (q / 1000)
    else if startsWithL ("s".toList) rest && allWsRe (rest.drop 1) then some q
    else if startsWithL ("m".toList) rest && allWsRe (rest.drop 1) then some (q * 60)
    else none

/-! ## Elaboration outcome classification (`script.py` lines 136-201) -/

/-- The log markers counted by `run_elaborate`. -/
def successMarker : Str := "Elaboration successed".toList

/-- Per-step failure marker. -/
def failedMarker : Str := "Check failed:".toList

/-- Crash marker. -/
def panickedMarker : Str := "panicked at".toList

/-- The classified outcome of one elaboration run. -/
structure ElabClass where
  ok : Bool
  success : Nat
  failed : Nat
  panicked : Bool
  deriving DecidableEq, Repr

/-- Model of the log-classification tail of `run_elaborate` (`script.py`
lines 183-200) on a successfully read log text: count the success and
failure markers, detect the crash marker, and clear `ok` when the run timed
out, panicked, or had failures. -/
def run_elaborate_classify (log : Str) (timed_out : Bool) : ElabClass :=
  let success := countSub successMarker log
  let failed := countSub failedMarker log
  let panicked := containsSub panickedMarker log
  let ok := if timed_out || panicked || decide (0 < failed) then false else true
  ⟨ok, success, failed, panicked⟩

/-! ## Slice execution (`script.py` lines 108-135) -/

/-- Model of the post-subprocess tail of `run_slice` (`script.py` lines
126-135), as a function of the subprocess exit code, the sizes of the
produced artifact and stderr files, the stderr path, and the debug flag.
Result: `((ok, reported stderr path), stderr file removed)`. -/
def run_slice_post (returncode : Int) (sliceSize stderrSize : Nat) (stderrPath : Str)
    (debug : Bool) : (Bool × Option Str) × Bool :=
  if sliceSize = 0 || returncode != 0 then ((false, some stderrPath), false)
  else ((true, none), decide (stderrSize = 0) && !debug)

/-! ## Orchestrator: one (certificate, hole) job (`script.py` lines 293-366) -/

/-- External tool invocations a job can make. -/
inductive ToolCall where
  | slice
  | elaborate
  deriving DecidableEq, Repr

/-- The one status line emitted per job on the stdout stream. -/
inductive StatusLine where
  | cachedOk
  | freshResult
  | sliceError
  deriving DecidableEq, Repr

/-- Model of the body of the orchestrator's per-hole loop (`script.py` lines
293-366): if the slice artifact is absent the slicing tool is invoked (on
failure the job stops with a `slice_error` status line); then, if the
elaboration log exists, the job is replayed as a cached `ok` status line with
no elaboration and no ledger append; otherwise the elaboration tool runs, the
fresh result line is printed and one record is appended to the ledger.
Inputs are the two cache-existence facts and an oracle for the slicing
result; output is `(tool calls made, status lines printed, ledger appended)`. -/
def jobStep (sliceExists logExists sliceOk : Bool) :
    List ToolCall × List StatusLine × Bool :=
  let calls0 : List ToolCall := if sliceExists then [] else [ToolCall.slice]
  if !sliceExists && !sliceOk then (calls0, [StatusLine.sliceError], false)
  else if logExists then (calls0, [StatusLine.cachedOk], false)
  else (calls0 ++ [ToolCall.elaborate], [StatusLine.freshResult], true)

/-! ## JSON values, serialization (`json.dump(..., ensure_ascii=False, indent=2)`)
and parsing (`json.load`), as used by the result ledger
(`script.py` lines 56-94) -/

/-- JSON values as produced by Python's `json` module.  Numbers keep their
lexical components (sign, integer digits, fraction digits, raw exponent
token) rather than a float value; Python's non-standard `NaN` and
`Infinity` literals are included.  A parsed lone-surrogate escape, which the
model's `Char` cannot carry, is mapped through `Char.ofNat` (a modelling
boundary; no input in the claims reaches it). -/
inductive Json where
  | null
  | bool (b : Bool)
  | num (neg : Bool) (ip fp ex : Str)
  | nan
  | inf (neg : Bool)
  | str (s : Str)
  | arr (xs : List Json)
  | obj (ms : List (Str × Json))

/-- Signed value of a raw exponent token as kept by the number parser:
empty for no exponent, otherwise `e`/`E`, an optional sign, and digits. -/
def expVal : Str → Int
  | [] => 0
  | _ :: r =>
    match r with
    | '-' :: ds => -(digitsToNat ds : Int)
    | '+' :: ds => (digitsToNat ds : Int)
    | ds => (digitsToNat ds : Int)

/-- Python truthiness of a parsed JSON value, as used by
`json.load(f) or []`.  An integer literal (no fraction and no exponent)
parses to a Python `int`, falsy exactly when its digits are all zero.  A
float literal parses through `float()`, i.e. IEEE-754 double rounding
(round to nearest, ties to even): it is falsy exactly when its exact
magnitude `M * 10^E` is at most `2^-1075`, the tie between `0.0` and the
smallest subnormal `2^-1074`, which rounds to the even `0.0`; larger values
round to a nonzero double (overflow gives a truthy infinity), so signs never
matter.  `NaN` and the `Infinity` literals are truthy. -/
def Json.isTruthy : Json → Bool
  | .null => false
  | .bool b => b
  | .num _ ip fp ex =>
    if fp.isEmpty && ex.isEmpty then ip.any (fun c => c != '0')
    else
      let M := digitsToNat (ip ++ fp)
      let E : Int := expVal ex - (fp.length : Int)
      decide (0 < M) &&
        (decide (0 ≤ E) || decide ((10 : Nat) ^ (-E).toNat < M * 2 ^ 1075))
  | .nan => true
  | .inf _ => true
  | .str s => !s.isEmpty
  | .arr xs => !xs.isEmpty
  | .obj ms => !ms.isEmpty

/-- Primitive values of a ledger record: the Job result records appended by
the driver are flat string-keyed objects with string, integer, boolean and
null values. -/
inductive Prim where
  | str (s : Str)
  | int (n : Int)
  | bool (b : Bool)
  | null
  deriving DecidableEq, Repr

/-- A record passed to `append_json_array`: a Python dict, i.e. an ordered
list of key-value pairs without duplicate keys (duplicate-freedom is a
hypothesis where needed, since Python dicts cannot carry duplicates). -/
abbrev Entry := List (Str × Prim)

/-- Keys of a Python dict are pairwise distinct. -/
def keysNodup (e : Entry) : Prop := (e.map Prod.fst).Nodup

/-- The character for hex digit `n`, lowercase as Python emits it. -/
def hexDigitChar (n : Nat) : Char :=
  match n with
  | 0 => '0' | 1 => '1' | 2 => '2' | 3 => '3' | 4 => '4'
  | 5 => '5' | 6 => '6' | 7 => '7' | 8 => '8' | 9 => '9'
  | 10 => 'a' | 11 => 'b' | 12 => 'c' | 13 => 'd' | 14 => 'e' | _ => 'f'

/-- JSON string escaping as done by `json.dumps(..., ensure_ascii=False)`:
quote, backslash and the named control characters get two-character escapes,
remaining control characters get `\u00xx`, everything else passes through. -/
def escChar (c : Char) : Str :=
  if c = '"' then ['\\', '"']
  else if c = '\\' then ['\\', '\\']
  else if c = '\n' then ['\\', 'n']
  else if c = '\r' then ['\\', 'r']
  else if c = '\t' then ['\\', 't']
  else if c = Char.ofNat 8 then ['\\', 'b']
  else if c = Char.ofNat 12 then ['\\', 'f']
  else if c.toNat < 32 then
    ['\\', 'u', '0', '0', hexDigitChar (c.toNat / 16), hexDigitChar (c.toNat % 16)]
  else [c]

/-- Escape a whole string. -/
def escStr : Str → Str
  | [] => []
  | c :: s => escChar c ++ escStr s

/-- Decimal representation of a Python int. -/
def intDigits (n : Int) : Str := (if n < 0 then ['-'] else []) ++ natDigits n.natAbs

/-- Serialization of a primitive value. -/
def serPrim : Prim → Str
  | .str s => '"' :: escStr s ++ ['"']
  | .int n => intDigits n
  | .bool true => "true".toList
  | .bool false => "false".toList
  | .null => "null".toList

/-- One serialized `"key": value` member line at indent level `ind`. -/
def serMember (ind : Nat) (kv : Str × Prim) : Str :=
  pad ind ++ '"' :: escStr kv.1 ++ '"' :: ':' :: ' ' :: serPrim kv.2

/-- The comma-newline-joined member lines of a record. -/
def serMembers (ind : Nat) : Entry → Str
  | [] => []
  | [kv] => serMember ind kv
  | kv :: rest => serMember ind kv ++ ',' :: '\n' :: serMembers ind rest

/-- Serialization of one record (`json.dumps(entry, ensure_ascii=False,
indent=2)` with the braces at base indent level `ind`): `\x7b\x7d` when
empty, otherwise members at level `ind + 1` and the closing brace at level
`ind`. -/
def serEntry (ind : Nat) (e : Entry) : Str :=
  if e.isEmpty then ['{', '}']
  else '{' :: '\n' :: serMembers (ind + 1) e ++ '\n' :: pad ind ++ ['}']

/-- The JSON value of a record. -/
def objOf (e : Entry) : Json := .obj (e.map fun kv => (kv.1, primJson kv.2))
where
  primJson : Prim → Json
    | .str s => .str s
    | .int n => .num (decide (n < 0)) (natDigits n.natAbs) [] []
    | .bool b => .bool b
    | .null => .null

mutual

/-- Fuel-driven serialization of an arbitrary parsed JSON value with
`indent=2`, used by the full-rewrite fallback of `append_json_array` (which
re-dumps whatever `json.load` returned).  The fuel, chosen as a size bound
at the call site, decrements on every constructor, so it never runs out
there.  Numbers are re-emitted from their lexical components (Python prints
parsed floats via `repr`, which can normalize the spelling; integer
components, the only kind the driver itself ever writes, round-trip
exactly). -/
def serJsonF : Nat → Nat → Json → Str
  | 0, _, _ => []
  | f + 1, ind, j =>
    match j with
    | .null => "null".toList
    | .bool true => "true".toList
    | .bool false => "false".toList
    | .nan => "NaN".toList
    | .inf true => '-' :: "Infinity".toList
    | .inf false => "Infinity".toList
    | .num neg ip fp ex =>
      (if neg then ['-'] else []) ++ ip ++ (if fp.isEmpty then [] else '.' :: fp) ++ ex
    | .str s => '"' :: escStr s ++ ['"']
    | .arr [] => ['[', ']']
    | .arr (x :: xs) => '[' :: '\n' :: serListF f (ind + 1) (x :: xs) ++ '\n' :: pad ind ++ [']']
    | .obj [] => ['{', '}']
    | .obj (m :: ms) => '{' :: '\n' :: serMembsF f (ind + 1) (m :: ms) ++ '\n' :: pad ind ++ ['}']

/-- Serialized array items, one per line. -/
def serListF : Nat → Nat → List Json → Str
  | 0, _, _ => []
  | _ + 1, _, [] => []
  | f + 1, ind, [x] => pad ind ++ serJsonF f ind x
  | f + 1, ind, x :: xs => pad ind ++ serJsonF f ind x ++ ',' :: '\n' :: serListF f ind xs

/-- Serialized object members, one per line. -/
def serMembsF : Nat → Nat → List (Str × Json) → Str
  | 0, _, _ => []
  | _ + 1, _, [] => []
  | f + 1, ind, [m] => pad ind ++ '"' :: escStr m.1 ++ '"' :: ':' :: ' ' :: serJsonF f ind m.2
  | f + 1, ind, m :: ms =>
    pad ind ++ '"' :: escStr m.1 ++ '"' :: ':' :: ' ' :: serJsonF f ind m.2 ++
      ',' :: '\n' :: serMembsF f ind ms

end

mutual

/-- Node count of a JSON value, used as a fuel bound for serialization. -/
def jsize : Json → Nat
  | .arr xs => 1 + jsizeL xs
  | .obj ms => 1 + jsizeM ms
  | _ => 1

/-- Node count of a list of JSON values. -/
def jsizeL : List Json → Nat
  | [] => 0
  | x :: xs => 1 + jsize x + jsizeL xs

/-- Node count of a list of JSON members. -/
def jsizeM : List (Str × Json) → Nat
  | [] => 0
  | m :: ms => 1 + jsize m.2 + jsizeM ms

end

/-- Top-level dump of a JSON array (`json.dump(list, f, ensure_ascii=False,
indent=2)`); the fuel bound dominates the node count, so the fuel never runs
out. -/
def dumpArr (xs : List Json) : Str := serJsonF (1 + jsizeL xs) 0 (Json.arr xs)

/-! ### The JSON parser (`json.load`) -/

/-- Skip JSON whitespace. -/
def skipWs (cs : Str) : Str := cs.dropWhile isWsJ

/-- Value of a hex digit character. -/
def hexValOf (c : Char) : Option Nat :=
  if 48 ≤ c.toNat ∧ c.toNat ≤ 57 then some (c.toNat - 48)
  else if 97 ≤ c.toNat ∧ c.toNat ≤ 102 then some (c.toNat - 87)
  else if 65 ≤ c.toNat ∧ c.toNat ≤ 70 then some (c.toNat - 55)
  else none

/-- The two-character string escapes. -/
def escMapOf (e : Char) : Option Char :=
  if e = '"' then some '"'
  else if e = '\\' then some '\\'
  else if e = '/' then some '/'
  else if e = 'b' then some (Char.ofNat 8)
  else if e = 'f' then some (Char.ofNat 12)
  else if e = 'n' then some '\n'
  else if e = 'r' then some '\r'
  else if e = 't' then some '\t'
  else none

/-- Parse the body of a JSON string after the opening quote, in strict mode:
raw control characters are rejected, escapes are the named ones plus
`\uXXXX`.  The fuel (supplied as the input length plus one at the call
sites, enough since every step consumes input) keeps the recursion
structural. -/
def parseStringBody : Nat → Str → Option (Str × Str)
  | 0, _ => none
  | _ + 1, [] => none
  | f + 1, c :: r =>
    if c = '"' then some ([], r)
    else if c = '\\' then
      match r with
      | [] => none
      | e :: r2 =>
        if e = 'u' then
          match r2 with
          | a :: b :: c2 :: d :: r3 =>
            match hexValOf a, hexValOf b, hexValOf c2, hexValOf d with
            | some x, some y, some z, some w =>
              match parseStringBody f r3 with
              | some (s, rest) =>
                some (Char.ofNat (((x * 16 + y) * 16 + z) * 16 + w) :: s, rest)
              | none => none
            | _, _, _, _ => none
          | _ => none
        else
          match escMapOf e with
          | some ec =>
            match parseStringBody f r2 with
            | some (s, rest) => some (ec :: s, rest)
            | none => none
          | none => none
    else if 32 ≤ c.toNat then
      match parseStringBody f r with
      | some (s, rest) => some (c :: s, rest)
      | none => none
    else none

/-- The optional fraction of a number token (`(\.\d+)?`, all-or-nothing). -/
def fracPart : Str → Str × Str
  | [] => ([], [])
  | c :: r =>
    if c = '.' then
      let ds := r.takeWhile isDigit10
      if ds.isEmpty then ([], c :: r) else (ds, r.dropWhile isDigit10)
    else ([], c :: r)

/-- The optional exponent of a number token (`([eE][-+]?\d+)?`,
all-or-nothing), kept as its raw characters. -/
def expPart : Str → Str × Str
  | [] => ([], [])
  | c :: r =>
    if c = 'e' || c = 'E' then
      match r with
      | [] => ([], c :: r)
      | d :: r2 =>
        if d = '+' || d = '-' then
          let ds := r2.takeWhile isDigit10
          if ds.isEmpty then ([], c :: r) else (c :: d :: ds, r2.dropWhile isDigit10)
        else
          let ds := (d :: r2).takeWhile isDigit10
          if ds.isEmpty then ([], c :: r) else (c :: ds, (d :: r2).dropWhile isDigit10)
    else ([], c :: r)

/-- The magnitude of a number token after an optional sign: `0` alone or a
nonzero-leading digit run (JSON forbids leading zeros), then the optional
fraction and exponent. -/
def parseNumMag (neg : Bool) : Str → Option (Json × Str)
  | [] => none
  | c :: r =>
    if isDigit10 c then
      let ipr : Str × Str :=
        if c = '0' then (['0'], r)
        else ((c :: r).takeWhile isDigit10, (c :: r).dropWhile isDigit10)
      let fr := fracPart ipr.2
      let ex := expPart fr.2
      some (Json.num neg ipr.1 fr.1 ex.1, ex.2)
    else none

/-- Python dict insertion `d[k] = v`: an existing key keeps its position and
gets the new value, a fresh key is appended. -/
def insertKV : List (Str × Json) → Str × Json → List (Str × Json)
  | [], kv => [kv]
  | (k1, v1) :: rest, (k, v) =>
    if k1 = k then (k1, v) :: rest else (k1, v1) :: insertKV rest (k, v)

/-- The dict built from the members in parse order. -/
def dedupKV (ms : List (Str × Json)) : List (Str × Json) := ms.foldl insertKV []

mutual

/-- Fuel-driven JSON value parser (strict `json.loads` grammar plus Python's
`NaN`/`Infinity` constants).  Fuel decrements on each nesting step; the
top-level call supplies `length + 1`, which suffices because every
`parseValue`/`parseItems`/`parseMembers` level consumes at least one input
character (nesting depth is bounded by the input length).  The dispatch
tests a leading digit before the literal keywords; since no keyword starts
with a digit, and a leading minus is resolved by whether `Infinity`
follows, this is the same case split Python's scanner makes. -/
def parseValue : Nat → Str → Option (Json × Str)
  | 0, _ => none
  | f + 1, cs =>
    match skipWs cs with
    | [] => none
    | c :: r =>
      if c = '{' then
        if headIs '}' (skipWs r) then some (Json.obj [], (skipWs r).tail)
        else
          match parseMembers f r with
          | some (ms, rest) => some (Json.obj (dedupKV ms), rest)
          | none => none
      else if c = '[' then
        if headIs ']' (skipWs r) then some (Json.arr [], (skipWs r).tail)
        else
          match parseItems f r with
          | some (xs, rest) => some (Json.arr xs, rest)
          | none => none
      else if c = '"' then
        match parseStringBody (r.length + 1) r with
        | some (s, rest) => some (Json.str s, rest)
        | none => none
      else if isDigit10 c then parseNumMag false (c :: r)
      else if c = '-' then
        if startsWithL ("Infinity".toList) r then some (Json.inf true, r.drop 8)
        else parseNumMag true r
      else if startsWithL ("true".toList) (c :: r) then some (Json.bool true, r.drop 3)
      else if startsWithL ("false".toList) (c :: r) then some (Json.bool false, r.drop 4)
      else if startsWithL ("null".toList) (c :: r) then some (Json.null, r.drop 3)
      else if startsWithL ("NaN".toList) (c :: r) then some (Json.nan, r.drop 2)
      else if startsWithL ("Infinity".toList) (c :: r) then some (Json.inf false, r.drop 7)
      else none

/-- Parse the items of a non-empty array after the opening bracket. -/
def parseItems : Nat → Str → Option (List Json × Str)
  | 0, _ => none
  | f + 1, cs =>
    match parseValue f cs with
    | some (v, r) =>
      match skipWs r with
      | [] => none
      | c :: r2 =>
        if c = ',' then
          match parseItems f r2 with
          | some (xs, rest) => some (v :: xs, rest)
          | none => none
        else if c = ']' then some ([v], r2)
        else none
    | none => none

/-- Parse the members of a non-empty object after the opening brace. -/
def parseMembers : Nat → Str → Option (List (Str × Json) × Str)
  | 0, _ => none
  | f + 1, cs =>
    match skipWs cs with
    | [] => none
    | c :: r =>
      if c = '"' then
        match parseStringBody (r.length + 1) r with
        | some (k, r1) =>
          match skipWs r1 with
          | [] => none
          | c2 :: r2 =>
            if c2 = ':' then
              match parseValue f r2 with
              | some (v, r3) =>
                match skipWs r3 with
                | [] => none
                | c3 :: r4 =>
                  if c3 = ',' then
                    match parseMembers f r4 with
                    | some (ms, rest) => some ((k, v) :: ms, rest)
                    | none => none
                  else if c3 = '}' then some ([(k, v)], r4)
                  else none
              | none => none
            else none
        | none => none
      else none

end

/-- Model of `json.load` on whole file contents: parse one value and require
only whitespace afterwards. -/
def json_load (s : Str) : Option Json :=
  match parseValue (s.length + 1) s with
  | some (v, rest) => if (skipWs rest).isEmpty then some v else none
  | none => none

/-- Characters that cannot extend a number token: used to state where a
serialized integer is followed by a separator. -/
def numStopAt : Str → Prop
  | [] => True
  | c :: _ => isDigit10 c = false ∧ c ≠ '.' ∧ c ≠ 'e' ∧ c ≠ 'E'

/-- A fuel bound for parsing back a serialized list of records. -/
def entriesFuel : List Entry → Nat
  | [] => 1
  | e :: es => e.length + 3 + entriesFuel es

/-! ### Bytes and UTF-8

`append_json_array` opens the ledger with `open(path, "rb+")`: the file is a
byte string, positions passed to `f.seek` are byte offsets, and each chunk
read during the backward scan is decoded with
`.decode("utf-8", errors="ignore")`.  The file state is therefore modelled
as a list of byte values, with the CPython UTF-8 codec modelled exactly:
the encoder for `ensure_ascii=False` output, the `errors="ignore"` decoder
(invalid sequences - stray continuations, overlong forms, surrogates,
out-of-range leads, truncated sequences - are skipped), and the strict
decoder used by `json.load` on a binary file. -/

/-- File contents in binary mode: a list of byte values. -/
abbrev Bytes := List Nat

/-- UTF-8 encoding of one character. -/
def utf8c (c : Char) : Bytes :=
  let n := c.toNat
  if n < 128 then [n]
  else if n < 2048 then [192 + n / 64, 128 + n % 64]
  else if n < 65536 then [224 + n / 4096, 128 + n / 64 % 64, 128 + n % 64]
  else [240 + n / 262144, 128 + n / 4096 % 64, 128 + n / 64 % 64, 128 + n % 64]

/-- UTF-8 encoding of a string (`str.encode("utf-8")`, and what the text
handle of `open(path, "w", encoding="utf-8")` writes). -/
def utf8 (s : Str) : Bytes := s.foldr (fun c acc => utf8c c ++ acc) []

/-- A UTF-8 continuation byte. -/
def isCont (b : Nat) : Bool := 128 ≤ b && b < 192

/-- Valid first continuation byte after a three-byte lead `b`: the lead
`0xE0` forbids overlong forms (continuation below `0xA0`) and the lead
`0xED` forbids surrogates (continuation at or above `0xA0`). -/
def cont1ok3 (b c1 : Nat) : Bool :=
  isCont c1 && !(b == 224 && decide (c1 < 160)) && !(b == 237 && decide (160 ≤ c1))

/-- Valid first continuation byte after a four-byte lead `b`: the lead
`0xF0` forbids overlong forms and the lead `0xF4` forbids code points above
`U+10FFFF`. -/
def cont1ok4 (b c1 : Nat) : Bool :=
  isCont c1 && !(b == 240 && decide (c1 < 144)) && !(b == 244 && decide (144 ≤ c1))

/-- The CPython UTF-8 decoder with `errors="ignore"`, fuel-driven (fuel
`length + 1` suffices as every step consumes at least one byte): ASCII bytes
decode to themselves, valid multi-byte sequences to their code point, and on
an invalid sequence the maximal subpart (the lead together with its valid
continuation bytes) is skipped; a sequence truncated by the end of input is
skipped silently. -/
def decIgnoreF : Nat → Bytes → Str
  | 0, _ => []
  | _ + 1, [] => []
  | f + 1, b :: r =>
    if b < 128 then Char.ofNat b :: decIgnoreF f r
    else if b < 194 then decIgnoreF f r
    else if b < 224 then
      match r with
      | [] => []
      | c1 :: r1 =>
        if isCont c1 then Char.ofNat ((b - 192) * 64 + (c1 - 128)) :: decIgnoreF f r1
        else decIgnoreF f r
    else if b < 240 then
      match r with
      | [] => []
      | c1 :: r1 =>
        if cont1ok3 b c1 then
          match r1 with
          | [] => []
          | c2 :: r2 =>
            if isCont c2 then
              Char.ofNat (((b - 224) * 64 + (c1 - 128)) * 64 + (c2 - 128)) :: decIgnoreF f r2
            else decIgnoreF f r1
        else decIgnoreF f r
    else if b < 245 then
      match r with
      | [] => []
      | c1 :: r1 =>
        if cont1ok4 b c1 then
          match r1 with
          | [] => []
          | c2 :: r2 =>
            if isCont c2 then
              match r2 with
              | [] => []
              | c3 :: r3 =>
                if isCont c3 then
                  Char.ofNat ((((b - 240) * 64 + (c1 - 128)) * 64 + (c2 - 128)) * 64 + (c3 - 128))
                    :: decIgnoreF f r3
                else decIgnoreF f r2
            else decIgnoreF f r1
        else decIgnoreF f r
    else decIgnoreF f r

/-- `bytes.decode("utf-8", errors="ignore")`. -/
def decodeIgnore (l : Bytes) : Str := decIgnoreF (l.length + 1) l

/-- The strict CPython UTF-8 decoder (`errors="strict"`), `none` for a
`UnicodeDecodeError`. -/
def decStrictF : Nat → Bytes → Option Str
  | 0, _ => none
  | _ + 1, [] => some []
  | f + 1, b :: r =>
    if b < 128 then (decStrictF f r).map (fun t => Char.ofNat b :: t)
    else if b < 194 then none
    else if b < 224 then
      match r with
      | c1 :: r1 =>
        if isCont c1 then
          (decStrictF f r1).map (fun t => Char.ofNat ((b - 192) * 64 + (c1 - 128)) :: t)
        else none
      | [] => none
    else if b < 240 then
      match r with
      | c1 :: c2 :: r2 =>
        if cont1ok3 b c1 && isCont c2 then
          (decStrictF f r2).map
            (fun t => Char.ofNat (((b - 224) * 64 + (c1 - 128)) * 64 + (c2 - 128)) :: t)
        else none
      | _ => none
    else if b < 245 then
      match r with
      | c1 :: c2 :: c3 :: r3 =>
        if cont1ok4 b c1 && isCont c2 && isCont c3 then
          (decStrictF f r3).map (fun t =>
            Char.ofNat ((((b - 240) * 64 + (c1 - 128)) * 64 + (c2 - 128)) * 64 + (c3 - 128)) :: t)
        else none
      | _ => none
    else none

/-- `bytes.decode("utf-8")`, strict. -/
def decodeStrict (l : Bytes) : Option Str := decStrictF (l.length + 1) l

/-- The character with the code point of each byte; on an all-ASCII byte
string this is its decoding under every UTF-8 decoder. -/
def asStr (b : Bytes) : Str := b.map Char.ofNat

/-- All characters of a string are ASCII.  `json.dumps(...,
ensure_ascii=False)` writes non-ASCII characters raw as multi-byte UTF-8,
so byte offsets and character offsets into the ledger agree exactly on
ASCII contents. -/
abbrev asciiS (s : Str) : Prop := ∀ c ∈ s, c.toNat < 128

/-- Boolean ASCII check for a string. -/
def asciiSb (s : Str) : Bool := s.all (fun c => decide (c.toNat < 128))

/-- A primitive record value whose serialization is ASCII: non-string values
serialize to ASCII digits and keywords, and string values escape control
characters to ASCII `\u00xx`, so only characters at code point 128 and above
survive raw. -/
def primAscii : Prim → Bool
  | .str s => asciiSb s
  | _ => true

/-- A record whose `json.dumps(..., ensure_ascii=False)` output is ASCII:
all key and string-value characters below code point 128. -/
def entryAscii (e : Entry) : Bool :=
  e.all (fun kv => asciiSb kv.1 && primAscii kv.2)

/-- The encodings distinguished by `json.detect_encoding`. -/
inductive Enc where
  | utf8 | utf8sig | utf16 | utf16be | utf16le | utf32 | utf32be | utf32le
  deriving DecidableEq

/-- `json.detect_encoding` from CPython's `json/__init__.py`, applied by
`json.load` to a binary file: a BOM decides directly, otherwise zero bytes
among the first four (or first two of a two-byte input) suggest UTF-16/32,
and everything else is UTF-8. -/
def detect_encoding (b : Bytes) : Enc :=
  match b with
  | 0 :: 0 :: 254 :: 255 :: _ => Enc.utf32
  | 255 :: 254 :: 0 :: 0 :: _ => Enc.utf32
  | 254 :: 255 :: _ => Enc.utf16
  | 255 :: 254 :: _ => Enc.utf16
  | 239 :: 187 :: 191 :: _ => Enc.utf8sig
  | b0 :: b1 :: b2 :: b3 :: _ =>
    if b0 = 0 then (if b1 = 0 then Enc.utf32be else Enc.utf16be)
    else if b1 = 0 then (if b2 = 0 ∧ b3 = 0 then Enc.utf32le else Enc.utf16le)
    else Enc.utf8
  | [b0, b1] =>
    if b0 = 0 then Enc.utf16be else if b1 = 0 then Enc.utf16le else Enc.utf8
  | _ => Enc.utf8

/-- `json.load(f)` on a binary file: detect the encoding, decode strictly,
parse; `none` for any raised exception.  The UTF-16/32 decode paths, which a
ledger file only reaches with a BOM or with zero bytes among its first four,
are outside the scope of this model and are mapped to `none`; every theorem
touching them carries a `detect_encoding _ = Enc.utf8` hypothesis. -/
def json_loadb (b : Bytes) : Option Json :=
  match detect_encoding b with
  | Enc.utf8 => (decodeStrict b).bind json_load
  | Enc.utf8sig => (decodeStrict (b.drop 3)).bind json_load
  | _ => none

/-! ### The ledger append (`append_json_array`, `script.py` lines 56-94) -/

/-- The chunk granularity of the backward scan. -/
def scanStep : Nat := 1024

/-- The character-level view of the backward chunk-accumulation loop: the
same recursion as `bScanLoopF` on a file whose bytes decode one-to-one (the
all-ASCII case, where each read chunk decodes to its own characters).  Used
as the correspondence target for the byte-level loop. -/
def scanLoopF : Nat → Str → Nat → Str → Nat × Str
  | 0, _, pos, chunk => (pos, chunk)
  | f + 1, s, pos, chunk =>
    if ']' ∈ chunk ∨ pos = 0 then (pos, chunk)
    else
      let newPos := pos - scanStep
      scanLoopF f s newPos ((s.drop newPos).take (min scanStep (newPos + scanStep)) ++ chunk)

/-- Character-level view of the whole backward scan (see `bracketScanB`). -/
def bracketScan (s : Str) : Option Nat :=
  let pos0 := s.length - scanStep
  let r := scanLoopF (s.length + 1) s pos0 (s.drop pos0)
  (rfindIdx ']' r.2).map (fun i => r.1 + i)

/-- The backward chunk-accumulation loop of `append_json_array` (`script.py`
lines 69-77) on the byte file: while no closing bracket is in the decoded
chunk and the byte position is positive, step back by `scanStep` bytes and
prepend the decode of the `min(step, pos + step)` bytes read at the new
position (each read is decoded separately with `errors="ignore"`, exactly as
the source concatenates decoded reads).  Fuel is supplied as `length + 1`,
more than the iteration count since `pos` strictly decreases. -/
def bScanLoopF : Nat → Bytes → Nat → Str → Nat × Str
  | 0, _, pos, chunk => (pos, chunk)
  | f + 1, b, pos, chunk =>
    if ']' ∈ chunk ∨ pos = 0 then (pos, chunk)
    else
      let newPos := pos - scanStep
      bScanLoopF f b newPos
        (decodeIgnore ((b.drop newPos).take (min scanStep (newPos + scanStep))) ++ chunk)

/-- The write position `abs_pos = pos + last_bracket` computed by the
backward scan on a non-empty file (`script.py` lines 78 and 91), `none` for
Python's `-1` (fallback).  `pos` is a byte offset into the file but
`last_bracket = chunk.rfind("]")` is a character index into the decoded
chunk, so the sum understates the byte position of the bracket whenever
multi-byte characters precede it in the chunk. -/
def bracketScanB (b : Bytes) : Option Nat :=
  let pos0 := b.length - scanStep
  let r := bScanLoopF (b.length + 1) b pos0 (decodeIgnore (b.drop pos0))
  (rfindIdx ']' r.2).map (fun i => r.1 + i)

/-- Overwrite-in-place at byte offset `p` without truncation: models
`f.seek(p); f.write(t)` on a binary file whose contents are `s`. -/
def spliceAtB (s : Bytes) (p : Nat) (t : Bytes) : Bytes :=
  s.take p ++ t ++ s.drop (p + t.length)

/-- Contents written when the ledger file is absent or empty:
`json.dump([entry], ...)` followed by a newline. -/
def createContents (e : Entry) : Str :=
  '[' :: '\n' :: pad 1 ++ serEntry 1 e ++ '\n' :: ']' :: ['\n']

/-- The tail spliced in over the final bracket:
`",\n" + json.dumps(entry, ...) + "\n]"`. -/
def spliceTail (e : Entry) : Str :=
  ',' :: '\n' :: serEntry 0 e ++ '\n' :: [']']

/-- The full-rewrite fallback (`script.py` lines 79-90) never completes:
the file handle is binary (`rb+`), so `json.dump(existing, f, ...)` at line
88, which writes `str` chunks, raises a `TypeError` on its first write.
`existing = json.load(f) or []` turns a parse failure or a falsy value into
`[]`; a truthy non-list makes `existing.append(entry)` raise an
`AttributeError` at line 85, before `f.truncate()`, leaving the file
unchanged; in every other case (`[]` from a falsy or unparsable file, or a
parsed list) the append succeeds, `f.seek(0); f.truncate()` empties the
file, and the `json.dump` `TypeError` then escapes with the file left empty.
The `Except.error` payload is the file contents at the moment the exception
escapes. -/
def fallbackAppendB (_e : Entry) (b : Bytes) : Except Bytes Bytes :=
  match json_loadb b with
  | some v =>
    if v.isTruthy then
      match v with
      | Json.arr _ => Except.error []
      | _ => Except.error b
    else Except.error []
  | none => Except.error []

/-- Model of `append_json_array` (`script.py` lines 56-94) as a transformer
of the binary ledger file state (`none` = file absent).  An absent file is
created as the UTF-8 text `json.dump([entry], ...)` plus a newline, and an
empty file gets the same bytes through `dumps(...).encode("utf-8")`;
otherwise the backward scan either finds a bracket and the tail
`",\n" + dumps(entry) + "\n]"` is encoded and spliced in at `abs_pos`, or
the fallback runs.  An `Except.error` result models an uncaught exception,
carrying the file contents it leaves behind; `.ok s` is a normal return with
new contents `s`. -/
def append_json_array (e : Entry) (file : Option Bytes) : Except Bytes Bytes :=
  match file with
  | none => Except.ok (utf8 (createContents e))
  | some s =>
    if s.length = 0 then Except.ok (utf8 (createContents e))
    else
      match bracketScanB s with
      | none => fallbackAppendB e s
      | some absPos => Except.ok (spliceAtB s absPos (utf8 (spliceTail e)))

/-- Sequential appends starting from a given file state. -/
def appendAll : List Entry → Option Bytes → Except Bytes (Option Bytes)
  | [], st => Except.ok st
  | e :: rest, st =>
    match append_json_array e st with
    | Except.ok s => appendAll rest (some s)
    | Except.error u => Except.error u

/-- The portion of the ledger contributed by the second and later records. -/
def restPart : List Entry → Str
  | [] => []
  | e :: rest => ',' :: '\n' :: serEntry 0 e ++ '\n' :: restPart rest

/-- Closed form of the ledger file contents after appending the given
records (nonempty list) to an initially absent file. -/
def contentsAfter : List Entry → Str
  | [] => []
  | e :: rest =>
    '[' :: '\n' :: pad 1 ++ serEntry 1 e ++ '\n' ::
      (restPart rest ++ ']' :: (if rest.isEmpty then ['\n'] else []))

/-- A well-formed one-record ledger whose string value `éé` is non-ASCII:
the UTF-8 bytes of `[\n  \x7b\n    "hole": "éé"\n  \x7d\n]\n`, with `é`
encoded as `195 169`.  Its last closing bracket is the byte `93` at byte
position 29, but the bracket's character index in the decoded file is 27. -/
def nonAsciiLedger : Bytes :=
  [91, 10, 32, 32, 123, 10, 32, 32, 32, 32, 34, 104, 111, 108, 101, 34, 58, 32, 34,
   195, 169, 195, 169, 34, 10, 32, 32, 125, 10, 93, 10]

/-! ### Theorems -/

/-- Claim C1: for every elaboration run classified by `run_elaborate` (for
every log text and timeout flag), the returned `ok` is true if and only if
`timed_out` is false, `panicked` is false, and `failed_count` equals 0. -/
theorem C1_run_elaborate_ok_iff (log : Str) (timed_out : Bool) :
    (run_elaborate_classify log timed_out).ok = true ↔
      timed_out = false ∧ (run_elaborate_classify log timed_out).panicked = false ∧
        (run_elaborate_classify log timed_out).failed = 0 := by
  simp only [run_elaborate_classify]
  cases timed_out
  · cases hp : containsSub panickedMarker log
    · by_cases hf : countSub failedMarker log = 0
      · simp [hp, hf]
      · simp [hp, hf, Nat.pos_of_ne_zero hf]
    · simp [hp]
  · simp

/-- Claim C5: `run_slice` reports success iff the exit code is zero and the
artifact is non-empty; on failure it returns the stderr path; on success with
debug off an empty stderr file is deleted. -/
theorem C5_run_slice_post_spec (rc : Int) (ss es : Nat) (p : Str) (d : Bool) :
    ((run_slice_post rc ss es p d).1.1 = true ↔ rc = 0 ∧ ss ≠ 0) ∧
      ((run_slice_post rc ss es p d).1.1 = false →
        (run_slice_post rc ss es p d).1.2 = some p) ∧
      (rc = 0 → ss ≠ 0 → es = 0 → d = false →
        (run_slice_post rc ss es p d).2 = true) := by
  refine ⟨?_, ?_, ?_⟩
  · constructor
    · intro h
      by_cases h1 : ss = 0 <;> by_cases h2 : rc = 0 <;>
        simp [run_slice_post, h1, h2] at h ⊢
    · rintro ⟨h2, h1⟩
      simp [run_slice_post, h1, h2]
  · intro h
    by_cases h1 : ss = 0 <;> by_cases h2 : rc = 0 <;>
      simp [run_slice_post, h1, h2] at h ⊢
  · intro h2 h1 h3 h4
    simp [run_slice_post, h1, h2, h3, h4]

/-- Witness for C5 at a concrete successful run with empty stderr and debug
off: the stderr file is removed. -/
theorem C5_run_slice_post_spec_witness :
    (run_slice_post 0 1 0 [] false).2 = true :=
  (C5_run_slice_post_spec 0 1 0 [] false).2.2 rfl (by decide) rfl rfl

/-- Counterexample to claim C4 as stated: a job whose elaboration log already
exists but whose slice artifact does not (for example after the slice file
was removed by hand) does invoke the external tool, for slicing, before the
log cache is consulted. -/
theorem C4_counterexample_tool_invoked :
    (jobStep false true true).1 ≠ ([] : List ToolCall) := by decide

/-- Claim C4 (amended): for every job whose elaboration log file and slice
artifact both already exist when the orchestrator reaches it, the
orchestrator emits exactly one status line, with status ok and cached true,
makes no external tool invocation, and appends nothing to the ledger. -/
theorem C4_cached_job_replayed :
    ∀ sliceOk : Bool, jobStep true true sliceOk = ([], [StatusLine.cachedOk], false) := by
  decide

/-- Counterexample to claim C8 as stated: `holes_in_alethe` performs its file
open with no exception handling (`read_file_lines`, `script.py` lines 24-27),
so a failure to open the file does not produce an empty hole list. -/
theorem C8_counterexample_open_failure_raises :
    holes_in_alethe_run none ≠ Except.ok [] := by
  simp [holes_in_alethe_run]

/-- Claim C8 (amended): a failure to open or read a certificate file makes
`holes_in_alethe` raise, propagating the error to its caller; the standalone
corpus scanner of `slice_to_json.py`, whose per-file read is wrapped in an
exception handler, reports no records for that file instead of aborting. -/
theorem C8_read_failure_behaviour :
    holes_in_alethe_run none = Except.error () ∧ scanFileRecords none = [] :=
  ⟨rfl, rfl⟩

/-- Character equality is equality of code points. -/
theorem charEq_iff_toNat {a b : Char} : a = b ↔ a.toNat = b.toNat := by
  constructor
  · intro h; rw [h]
  · intro h
    exact Char.ext (UInt32.ext h)

/-- Digits are not regex whitespace. -/
theorem not_ws_of_digit {c : Char} (h : isDigit10 c = true) : isWsRe c = false := by
  have hc : 48 ≤ c.toNat ∧ c.toNat ≤ 57 := by
    simpa [isDigit10, Bool.and_eq_true, decide_eq_true_eq] using h
  have e1 : (' ' : Char).toNat = 32 := by decide
  have e2 : ('\t' : Char).toNat = 9 := by decide
  have e3 : ('\n' : Char).toNat = 10 := by decide
  have e4 : ('\r' : Char).toNat = 13 := by decide
  have e5 : (Char.ofNat 12).toNat = 12 := by decide
  have e6 : (Char.ofNat 11).toNat = 11 := by decide
  simp only [isWsRe, Bool.or_eq_false_iff, decide_eq_false_iff_not, charEq_iff_toNat,
    e1, e2, e3, e4, e5, e6]
  omega

/-- The characters of `human_elapsed` outputs are left fixed by ASCII
lower-casing. -/
theorem toLowerChar_id {c : Char} (h : c.toNat < 65 ∨ 90 < c.toNat) : toLowerChar c = c := by
  unfold toLowerChar
  rw [if_neg]
  omega

/-- Dropping while a predicate that fails on every element is the identity. -/
theorem dropWhile_id_of_all {p : Char → Bool} {s : Str} (h : ∀ c ∈ s, p c = false) :
    s.dropWhile p = s := by
  cases s with
  | nil => rfl
  | cons c cs => exact List.dropWhile_cons_of_neg (by simp [h c (List.mem_cons_self c cs)])

/-- Stripping a string with no whitespace is the identity. -/
theorem stripStr_id {s : Str} (h : ∀ c ∈ s, isWsRe c = false) : stripStr s = s := by
  unfold stripStr
  rw [dropWhile_id_of_all h, dropWhile_id_of_all (by intro c hc; exact h c (List.mem_reverse.1 hc)),
    List.reverse_reverse]

/-- Lower-casing a string of fixed characters is the identity. -/
theorem toLowerStr_id {s : Str} (h : ∀ c ∈ s, toLowerChar c = c) : toLowerStr s = s := by
  induction s with
  | nil => rfl
  | cons c cs ih =>
    simp only [toLowerStr, List.map_cons]
    rw [h c (List.mem_cons_self c cs)]
    exact congrArg _ (ih fun d hd => h d (List.mem_cons_of_mem c hd))

/-- Take-while over a prefix on which the predicate holds. -/
theorem takeWhile_append_all {p : Char → Bool} {l r : Str} (h : ∀ c ∈ l, p c = true) :
    (l ++ r).takeWhile p = l ++ r.takeWhile p := by
  induction l with
  | nil => rfl
  | cons c cs ih =>
    simp only [List.cons_append, List.takeWhile_cons_of_pos (h c (List.mem_cons_self c cs))]
    exact congrArg _ (ih fun d hd => h d (List.mem_cons_of_mem c hd))

/-- Drop-while over a prefix on which the predicate holds. -/
theorem dropWhile_append_all {p : Char → Bool} {l r : Str} (h : ∀ c ∈ l, p c = true) :
    (l ++ r).dropWhile p = r.dropWhile p := by
  induction l with
  | nil => rfl
  | cons c cs ih =>
    simp only [List.cons_append, List.dropWhile_cons_of_pos (h c (List.mem_cons_self c cs))]
    exact ih fun d hd => h d (List.mem_cons_of_mem c hd)

/-- Decimal digit characters. -/
theorem digitChar_is_digit {n : Nat} (h : n < 10) : isDigit10 (digitChar n) = true := by
  interval_cases n <;> decide

/-- The decimal representation is a non-empty string of digits. -/
theorem natDigitsAux_spec :
    ∀ (f n : Nat), n < f →
      natDigitsAux f n ≠ [] ∧ ∀ c ∈ natDigitsAux f n, isDigit10 c = true := by
  intro f
  induction f with
  | zero => intro n h; omega
  | succ g ih =>
    intro n hn
    rw [natDigitsAux]
    by_cases h10 : n < 10
    · refine ⟨by simp [h10], ?_⟩
      intro c hc
      simp only [h10, if_true, List.mem_singleton] at hc
      exact hc ▸ digitChar_is_digit h10
    · have hdiv : n / 10 < g := by
        have := Nat.div_lt_self (by omega : 0 < n) (by omega : 1 < 10)
        omega
      rcases ih (n / 10) hdiv with ⟨hne, hdig⟩
      refine ⟨by simp [h10], ?_⟩
      intro c hc
      simp only [h10, if_false, List.mem_append, List.mem_singleton] at hc
      rcases hc with hc | hc
      · exact hdig c hc
      · exact hc ▸ digitChar_is_digit (Nat.mod_lt n (by omega))

/-- The decimal representation is non-empty. -/
theorem natDigits_ne_nil (n : Nat) : natDigits n ≠ [] :=
  (natDigitsAux_spec (n + 1) n (Nat.lt_succ_self n)).1

/-- The decimal representation consists of digits. -/
theorem natDigits_all_digits (n : Nat) : ∀ c ∈ natDigits n, isDigit10 c = true :=
  (natDigitsAux_spec (n + 1) n (Nat.lt_succ_self n)).2

/-- Zero padding preserves being a digit string. -/
theorem padZeros_all_digits {d : Nat} {s : Str} (h : ∀ c ∈ s, isDigit10 c = true) :
    ∀ c ∈ padZeros d s, isDigit10 c = true := by
  intro c hc
  rcases List.mem_append.1 hc with hc | hc
  · rw [List.eq_of_mem_replicate hc]; decide
  · exact h c hc

/-- Zero padding preserves non-emptiness. -/
theorem padZeros_ne_nil {d : Nat} {s : Str} (h : s ≠ []) : padZeros d s ≠ [] := by
  unfold padZeros
  intro hcon
  exact h (List.append_eq_nil.1 hcon).2

/-- A unit suffix of the elapsed format. -/
def isUnitTail (u : Str) : Prop :=
  u = "ns".toList ∨ u = "ms".toList ∨ u = "s".toList ∨ u = "m".toList

/-- The characters of an accepted elapsed string: digits, the dot, and the
lowercase unit letters are non-whitespace and fixed by lower-casing. -/
theorem elapsed_chars_fixed {ds u : Str} (hd : ∀ c ∈ ds, isDigit10 c = true ∨ c = '.')
    (hu : isUnitTail u) :
    (∀ c ∈ ds ++ u, isWsRe c = false) ∧ (∀ c ∈ ds ++ u, toLowerChar c = c) := by
  have hdig_cases : ∀ c ∈ ds ++ u, isDigit10 c = true ∨ c = 'n' ∨ c = 'm' ∨ c = 's' ∨ c = '.' := by
    intro c hc
    rcases List.mem_append.1 hc with hc | hc
    · rcases hd c hc with h | h
      · exact Or.inl h
      · exact Or.inr (Or.inr (Or.inr (Or.inr h)))
    · rcases hu with hu | hu | hu | hu <;> subst hu <;> simp at hc <;> tauto
  constructor
  · intro c hc
    rcases hdig_cases c hc with h | h | h | h | h
    · exact not_ws_of_digit h
    all_goals (subst h; decide)
  · intro c hc
    rcases hdig_cases c hc with h | h | h | h | h
    · refine toLowerChar_id (Or.inl ?_)
      have : 48 ≤ c.toNat ∧ c.toNat ≤ 57 := by
        simpa [isDigit10, Bool.and_eq_true, decide_eq_true_eq] using h
      omega
    all_goals (subst h; decide)

/-- The unit dispatch accepts each of the four unit suffixes. -/
theorem unitOf_isSome {q : Rat} {u : Str} (hu : isUnitTail u) :
    (parse_elapsed_to_seconds.unitOf q u).isSome = true := by
  rcases hu with hu | hu | hu | hu <;> subst hu <;> rfl

/-- A non-empty digit string followed by a unit suffix is accepted by the
elapsed parser. -/
theorem elapsed_accept_plain {ds u : Str} (hne : ds ≠ [])
    (hd : ∀ c ∈ ds, isDigit10 c = true) (hu : isUnitTail u) :
    (parse_elapsed_to_seconds (ds ++ u)).isSome = true := by
  have hchars := elapsed_chars_fixed (fun c hc => Or.inl (hd c hc)) hu
  have hie : ds.isEmpty = false := by
    cases ds
    · exact absurd rfl hne
    · rfl
  have htw : u.takeWhile isDigit10 = [] := by
    rcases hu with hu | hu | hu | hu <;> subst hu <;> decide
  have hdw : u.dropWhile isDigit10 = u := by
    rcases hu with hu | hu | hu | hu <;> subst hu <;> decide
  have hdot : headIs '.' u = false := by
    rcases hu with hu | hu | hu | hu <;> subst hu <;> decide
  simp only [parse_elapsed_to_seconds, stripStr_id hchars.1, toLowerStr_id hchars.2,
    dropWhile_id_of_all hchars.1, takeWhile_append_all hd, dropWhile_append_all hd,
    htw, hdw, hdot, List.append_nil, hie, Bool.false_eq_true, if_false]
  exact unitOf_isSome hu

/-- A digit string, a dot, more digits and a unit suffix are accepted by the
elapsed parser. -/
theorem elapsed_accept_frac {ds1 ds2 u : Str} (h1 : ds1 ≠ [])
    (hd1 : ∀ c ∈ ds1, isDigit10 c = true) (h2 : ds2 ≠ [])
    (hd2 : ∀ c ∈ ds2, isDigit10 c = true) (hu : isUnitTail u) :
    (parse_elapsed_to_seconds ((ds1 ++ '.' :: ds2) ++ u)).isSome = true := by
  have hdall : ∀ c ∈ ds1 ++ '.' :: ds2, isDigit10 c = true ∨ c = '.' := by
    intro c hc
    rcases List.mem_append.1 hc with hc | hc
    · exact Or.inl (hd1 c hc)
    · rcases List.mem_cons.1 hc with hc | hc
      · exact Or.inr hc
      · exact Or.inl (hd2 c hc)
  have hchars := elapsed_chars_fixed hdall hu
  have hie1 : ds1.isEmpty = false := by
    cases ds1
    · exact absurd rfl h1
    · rfl
  have hie2 : ds2.isEmpty = false := by
    cases ds2
    · exact absurd rfl h2
    · rfl
  have htw : u.takeWhile isDigit10 = [] := by
    rcases hu with hu | hu | hu | hu <;> subst hu <;> decide
  have hdw : u.dropWhile isDigit10 = u := by
    rcases hu with hu | hu | hu | hu <;> subst hu <;> decide
  have hshape : (ds1 ++ '.' :: ds2) ++ u = ds1 ++ '.' :: (ds2 ++ u) := by
    simp [List.append_assoc]
  have hdotfail : isDigit10 '.' = false := by decide
  have hhead : headIs '.' ('.' :: (ds2 ++ u)) = true := by simp [headIs]
  have hws : ∀ c ∈ ds1 ++ '.' :: (ds2 ++ u), isWsRe c = false := hshape ▸ hchars.1
  have hlc : ∀ c ∈ ds1 ++ '.' :: (ds2 ++ u), toLowerChar c = c := hshape ▸ hchars.2
  simp only [parse_elapsed_to_seconds, hshape, stripStr_id hws, toLowerStr_id hlc,
    dropWhile_id_of_all hws, takeWhile_append_all hd1, dropWhile_append_all hd1,
    List.takeWhile_cons_of_neg (by simp [hdotfail] : ¬isDigit10 '.' = true),
    List.dropWhile_cons_of_neg (by simp [hdotfail] : ¬isDigit10 '.' = true),
    List.append_nil, hie1, hhead, List.tail_cons, takeWhile_append_all hd2,
    dropWhile_append_all hd2, htw, hdw, hie2, Bool.false_eq_true, if_false, if_true]
  exact unitOf_isSome hu

/-- Claim C9: every string produced by `human_elapsed` is accepted by the
downstream parser `parse_elapsed_to_seconds` (the numeric-plus-unit format
with unit among ns, ms, s, m), yielding a value rather than NaN. -/
theorem C9_elapsed_format_parseable (ns : Nat) :
    (parse_elapsed_to_seconds (human_elapsed ns)).isSome = true := by
  unfold human_elapsed
  split_ifs with h1 h2 h3
  · exact elapsed_accept_plain (natDigits_ne_nil ns) (natDigits_all_digits ns) (Or.inl rfl)
  · rw [show fmtFixed ns 1000000 0 = natDigits (divRoundHalfEven (ns * 10 ^ 0) 1000000) from
      by simp [fmtFixed]]
    exact elapsed_accept_plain (natDigits_ne_nil _) (natDigits_all_digits _)
      (Or.inr (Or.inl rfl))
  · rw [show fmtFixed ns 1000000000 2 =
        natDigits (divRoundHalfEven (ns * 10 ^ 2) 1000000000 / 10 ^ 2) ++
          '.' :: padZeros 2 (natDigits (divRoundHalfEven (ns * 10 ^ 2) 1000000000 % 10 ^ 2)) from
      by simp [fmtFixed]]
    exact elapsed_accept_frac (natDigits_ne_nil _) (natDigits_all_digits _)
      (padZeros_ne_nil (natDigits_ne_nil _)) (padZeros_all_digits (natDigits_all_digits _))
      (Or.inr (Or.inr (Or.inl rfl)))
  · rw [show fmtFixed ns 60000000000 2 =
        natDigits (divRoundHalfEven (ns * 10 ^ 2) 60000000000 / 10 ^ 2) ++
          '.' :: padZeros 2 (natDigits (divRoundHalfEven (ns * 10 ^ 2) 60000000000 % 10 ^ 2)) from
      by simp [fmtFixed]]
    exact elapsed_accept_frac (natDigits_ne_nil _) (natDigits_all_digits _)
      (padZeros_ne_nil (natDigits_ne_nil _)) (padZeros_all_digits (natDigits_all_digits _))
      (Or.inr (Or.inr (Or.inr rfl)))

/-- Deduplication only keeps elements of the input list. -/
theorem dedupAux_subset (l : List (Str × Nat)) :
    ∀ (seen : List Str) (p : Str × Nat), p ∈ dedupAux seen l → p ∈ l := by
  induction l with
  | nil => intro seen p h; simp [dedupAux] at h
  | cons a rest ih =>
    intro seen p h
    by_cases ha : a.1 ∈ seen
    · exact List.mem_cons_of_mem _ (ih seen p (by simpa [dedupAux, ha] using h))
    · simp only [dedupAux, ha, if_false, List.mem_cons] at h
      rcases h with h | h
      · exact h ▸ List.mem_cons_self a rest
      · exact List.mem_cons_of_mem _ (ih _ p h)

/-- A kept element's name was not yet seen. -/
theorem dedupAux_not_seen (l : List (Str × Nat)) :
    ∀ (seen : List Str) (p : Str × Nat), p ∈ dedupAux seen l → p.1 ∉ seen := by
  induction l with
  | nil => intro seen p h; simp [dedupAux] at h
  | cons a rest ih =>
    intro seen p h
    by_cases ha : a.1 ∈ seen
    · exact ih seen p (by simpa [dedupAux, ha] using h)
    · simp only [dedupAux, ha, if_false, List.mem_cons] at h
      rcases h with h | h
      · exact h ▸ ha
      · intro hmem
        exact ih _ p h (List.mem_cons_of_mem _ hmem)

/-- The names surviving deduplication are pairwise distinct. -/
theorem dedupAux_names_nodup (l : List (Str × Nat)) :
    ∀ seen : List Str, ((dedupAux seen l).map Prod.fst).Nodup := by
  induction l with
  | nil => intro seen; simp [dedupAux]
  | cons a rest ih =>
    intro seen
    by_cases ha : a.1 ∈ seen
    · simpa [dedupAux, ha] using ih seen
    · simp only [dedupAux, ha, if_false, List.map_cons, List.nodup_cons]
      refine ⟨?_, ih _⟩
      intro hmem
      rcases List.mem_map.1 hmem with ⟨q, hq, hq1⟩
      exact dedupAux_not_seen rest _ q hq (hq1 ▸ List.mem_cons_self a.1 seen)

/-- No extracted hole name contains a dot (`script.py` lines 34-36). -/
theorem extractAux_dotfree (ls : List Str) :
    ∀ (k : Nat) (p : Str × Nat), p ∈ extractAux k ls → '.' ∉ p.1 := by
  induction ls with
  | nil => intro k p h; simp [extractAux] at h
  | cons l rest ih =>
    intro k p h
    rw [extractAux] at h
    rcases hl : holeOfLine l with _ | n
    · exact ih (k + 1) p (by rwa [hl] at h)
    · rw [hl] at h
      by_cases hd : '.' ∈ n
      · exact ih (k + 1) p (by simpa [hd] using h)
      · simp only [hd, if_false, List.mem_cons] at h
        rcases h with h | h
        · rw [h]; exact hd
        · exact ih (k + 1) p h

/-- Extracted line numbers are bounded below by the running counter. -/
theorem extractAux_lineno_lb (ls : List Str) :
    ∀ (k : Nat) (p : Str × Nat), p ∈ extractAux k ls → k ≤ p.2 := by
  induction ls with
  | nil => intro k p h; simp [extractAux] at h
  | cons l rest ih =>
    intro k p h
    rw [extractAux] at h
    rcases hl : holeOfLine l with _ | n
    · rw [hl] at h
      exact Nat.le_of_succ_le (ih (k + 1) p h)
    · rw [hl] at h
      by_cases hd : '.' ∈ n
      · exact Nat.le_of_succ_le (ih (k + 1) p (by simpa [hd] using h))
      · simp only [hd, if_false, List.mem_cons] at h
        rcases h with h | h
        · rw [h]
        · exact Nat.le_of_succ_le (ih (k + 1) p h)

/-- Line numbers strictly increase along the extracted list (each line
yields at most one hole). -/
theorem extractAux_pairwise (ls : List Str) :
    ∀ k : Nat, (extractAux k ls).Pairwise (fun a b => a.2 < b.2) := by
  induction ls with
  | nil => intro k; simp [extractAux]
  | cons l rest ih =>
    intro k
    rw [extractAux]
    rcases hl : holeOfLine l with _ | n
    · exact ih (k + 1)
    · by_cases hd : '.' ∈ n
      · simpa [hd] using ih (k + 1)
      · simp only [hd, if_false]
        refine List.Pairwise.cons ?_ (ih (k + 1))
        intro q hq
        exact Nat.lt_of_succ_le (extractAux_lineno_lb rest (k + 1) q hq)

/-- On a list with strictly increasing line numbers, first-occurrence
deduplication keeps, for each kept name, the least line number among the
occurrences of that name. -/
theorem dedupAux_first_occurrence (l : List (Str × Nat)) :
    ∀ seen : List Str, l.Pairwise (fun a b => a.2 < b.2) →
      ∀ p ∈ dedupAux seen l, ∀ q ∈ l, q.1 = p.1 → p.2 ≤ q.2 := by
  induction l with
  | nil => intro seen _ p hp; simp [dedupAux] at hp
  | cons a rest ih =>
    intro seen hpw p hp q hq hname
    rcases List.pairwise_cons.1 hpw with ⟨ha, hrest⟩
    by_cases hseen : a.1 ∈ seen
    · have hp' : p ∈ dedupAux seen rest := by simpa [dedupAux, hseen] using hp
      rcases List.mem_cons.1 hq with hq | hq
      · exfalso
        exact dedupAux_not_seen rest seen p hp' (hname ▸ hq ▸ hseen)
      · exact ih seen hrest p hp' q hq hname
    · simp only [dedupAux, hseen, if_false, List.mem_cons] at hp
      rcases hp with hp | hp
      · subst hp
        rcases List.mem_cons.1 hq with hq | hq
        · rw [hq]
        · exact Nat.le_of_lt (ha q hq)
      · rcases List.mem_cons.1 hq with hq | hq
        · exact absurd (by rw [← hname, hq]; exact List.mem_cons_self a.1 seen)
            (dedupAux_not_seen rest _ p hp)
        · exact ih _ hrest p hp q hq hname

/-- Claim C3: the hole list of a certificate has pairwise distinct names,
contains no dotted name, and pairs each kept name with the line number of
its first (least-numbered) extracted occurrence; on the concrete
certificate with marker occurrences for `h1`, `h1.sub`, `h1`, `h2` it
yields exactly `h1` at line 1 and `h2` at line 4. -/
theorem C3_holes_dedup_firstline :
    (∀ lines : List Str,
      ((holes_in_alethe lines).map Prod.fst).Nodup ∧
      (∀ p ∈ holes_in_alethe lines, '.' ∉ p.1) ∧
      (∀ p ∈ holes_in_alethe lines,
        p ∈ extractHoles lines ∧ ∀ q ∈ extractHoles lines, q.1 = p.1 → p.2 ≤ q.2)) ∧
    holes_in_alethe demoCert = [("h1".toList, 1), ("h2".toList, 4)] := by
  refine ⟨fun lines => ⟨?_, ?_, ?_⟩, by decide⟩
  · exact dedupAux_names_nodup _ []
  · intro p hp
    exact extractAux_dotfree lines 1 p (dedupAux_subset _ [] p hp)
  · intro p hp
    refine ⟨dedupAux_subset _ [] p hp, ?_⟩
    intro q hq hname
    exact dedupAux_first_occurrence _ [] (extractAux_pairwise lines 1) p hp q hq hname

/-- Witness for C3: the kept hole `(h1, 1)` of the concrete certificate is an
extracted occurrence. -/
theorem C3_holes_dedup_firstline_witness :
    ("h1".toList, 1) ∈ extractHoles demoCert :=
  ((C3_holes_dedup_firstline.1 demoCert).2.2 ("h1".toList, 1) (by decide)).1

/-- Decomposition of the last-occurrence search over an append. -/
theorem rfindIdx_append (c : Char) (a b : Str) :
    rfindIdx c (a ++ b) =
      match rfindIdx c b with
      | some i => some (a.length + i)
      | none => rfindIdx c a := by
  induction a with
  | nil => cases h : rfindIdx c b <;> simp [h, rfindIdx]
  | cons x xs ih =>
    rw [List.cons_append, rfindIdx, ih]
    cases h : rfindIdx c b with
    | none => simp [rfindIdx]
    | some i =>
      simp only [List.length_cons]
      exact congrArg some (by omega)

/-- The search fails exactly on lists not containing the character. -/
theorem rfindIdx_eq_none {c : Char} {l : Str} : rfindIdx c l = none ↔ c ∉ l := by
  induction l with
  | nil => simp [rfindIdx]
  | cons x xs ih =>
    rw [rfindIdx]
    cases h : rfindIdx c xs with
    | some i => simp [← ih, h]
    | none =>
      by_cases hx : x = c
      · simp [hx, ih.1 h]
      · simp [hx, ← ih, h, Ne.symm hx]

/-- Appending characters other than the searched one does not move the last
occurrence. -/
theorem rfindIdx_append_none {c : Char} {a b : Str} (h : c ∉ b) :
    rfindIdx c (a ++ b) = rfindIdx c a := by
  rw [rfindIdx_append, rfindIdx_eq_none.2 h]

/-- The last occurrence in the right part dominates. -/
theorem rfindIdx_append_some {c : Char} {a b : Str} {i : Nat} (h : rfindIdx c b = some i) :
    rfindIdx c (a ++ b) = some (a.length + i) := by
  rw [rfindIdx_append, h]

/-- The position of a final bracket followed only by non-brackets. -/
theorem rfindIdx_last_bracket (a t : Str) (h : ']' ∉ t) :
    rfindIdx ']' (a ++ ']' :: t) = some a.length := by
  have h0 : rfindIdx ']' (']' :: t) = some 0 := by
    rw [rfindIdx, rfindIdx_eq_none.2 h]
    simp
  rw [rfindIdx_append_some h0]
  simp

/-- A found index is inside the list. -/
theorem rfindIdx_some_lt {c : Char} {l : Str} {i : Nat} (h : rfindIdx c l = some i) :
    i < l.length := by
  induction l generalizing i with
  | nil => simp [rfindIdx] at h
  | cons x xs ih =>
    rw [rfindIdx] at h
    cases h2 : rfindIdx c xs with
    | some j =>
      rw [h2] at h
      have := ih h2
      simp only [Option.some.injEq] at h
      simp only [List.length_cons]
      omega
    | none =>
      rw [h2] at h
      by_cases hx : x = c
      · simp [hx] at h
        simp [← h]
      · simp [hx] at h

/-- Relocating the last occurrence from a suffix to the whole list. -/
theorem rfind_drop_mem (s : Str) (p : Nat) (hp : p ≤ s.length) (h : ']' ∈ s.drop p) :
    (rfindIdx ']' (s.drop p)).map (fun i => p + i) = rfindIdx ']' s := by
  obtain ⟨i, hi⟩ : ∃ i, rfindIdx ']' (s.drop p) = some i := by
    rcases hh : rfindIdx ']' (s.drop p) with _ | i
    · exact absurd (rfindIdx_eq_none.1 hh) (by simpa using h)
    · exact ⟨i, rfl⟩
  have happ := rfindIdx_append_some (a := s.take p) hi
  rw [List.take_append_drop] at happ
  rw [hi, happ, Option.map_some']
  have : (s.take p).length = p := by
    rw [List.length_take]
    omega
  rw [this]

/-- If no bracket lies beyond position `p`, truncating at any point past `p`
keeps the last occurrence. -/
theorem rfind_take_none_drop (s : Str) (p k : Nat) (hpk : p ≤ k) (h : ']' ∉ s.drop p) :
    rfindIdx ']' (s.take k) = rfindIdx ']' s := by
  have hk : ']' ∉ s.drop k := by
    intro hmem
    apply h
    have hdd : s.drop k = (s.drop p).drop (k - p) := by
      rw [List.drop_drop]
      congr 1
      omega
    rw [hdd] at hmem
    exact List.mem_of_mem_drop hmem
  conv_rhs => rw [← List.take_append_drop k s]
  rw [rfindIdx_append_none hk]

/-- A suffix splits as a chunk plus a later suffix. -/
theorem drop_decomp (s : Str) (a b : Nat) (hab : a ≤ b) :
    (s.drop a).take (b - a) ++ s.drop b = s.drop a := by
  conv_rhs => rw [← List.take_append_drop (b - a) (s.drop a)]
  rw [List.drop_drop]
  congr 2
  omega

/-- Correctness of the backward chunk-accumulation loop: started on the
suffix at `pos` with enough fuel, the final `(position, chunk)` pair locates
the last bracket of the whole file (or reports none when the file has no
bracket).  The final chunk is either an exact suffix or, when the last read
landed on position 0 with an overshooting read length, a prefix-overlapping
chunk; in both cases the rightmost bracket of the chunk sits at the right
absolute position because the overlap region is bracket-free. -/
theorem scanLoopF_spec (s : Str) :
    ∀ (f pos : Nat), pos < f → pos ≤ s.length →
      (rfindIdx ']' (scanLoopF f s pos (s.drop pos)).2).map
        (fun i => (scanLoopF f s pos (s.drop pos)).1 + i) = rfindIdx ']' s := by
  intro f
  induction f with
  | zero => intro pos h _; omega
  | succ g ih =>
    intro pos hposf hlen
    rw [scanLoopF]
    by_cases hin : ']' ∈ s.drop pos
    · rw [if_pos (Or.inl hin)]
      exact rfind_drop_mem s pos hlen hin
    · by_cases hz : pos = 0
      · subst hz
        rw [if_pos (Or.inr rfl)]
        simp only [List.drop_zero]
        cases h4 : rfindIdx ']' s <;> simp [h4]
      · have hstep : 0 < scanStep := by decide
        simp only [if_neg (by tauto : ¬ (']' ∈ s.drop pos ∨ pos = 0))]
        by_cases hbig : scanStep < pos
        · have h1 : min scanStep (pos - scanStep + scanStep) = scanStep := by omega
          have h2 : (s.drop (pos - scanStep)).take scanStep ++ s.drop pos =
              s.drop (pos - scanStep) := by
            have hd := drop_decomp s (pos - scanStep) pos (by omega)
            rw [show pos - (pos - scanStep) = scanStep from by omega] at hd
            exact hd
          rw [h1, h2]
          exact ih (pos - scanStep) (by omega) (by omega)
        · have hnp0 : pos - scanStep = 0 := by omega
          rw [hnp0]
          have h1 : min scanStep (0 + scanStep) = scanStep := by omega
          rw [h1, List.drop_zero]
          rcases g with _ | g'
          · omega
          · rw [scanLoopF, if_pos (Or.inr rfl)]
            have h3 : rfindIdx ']' (s.take scanStep ++ s.drop pos) = rfindIdx ']' s := by
              rw [rfindIdx_append_none hin, rfind_take_none_drop s pos scanStep (by omega) hin]
            rw [h3]
            cases h4 : rfindIdx ']' s <;> simp [h4]

/-- The backward scan of `append_json_array` computes exactly the position of
the last closing bracket of the file (`none` when there is none). -/
theorem bracketScan_spec (s : Str) : bracketScan s = rfindIdx ']' s := by
  simpa only [bracketScan] using
    scanLoopF_spec s (s.length + 1) (s.length - scanStep) (by omega) (by omega)

/-- `Char.ofNat` of a valid code point keeps its value. -/
theorem toNat_ofNat_valid {n : Nat} (h : Nat.isValidChar n) : (Char.ofNat n).toNat = n := by
  unfold Char.ofNat
  rw [dif_pos h]
  rfl

/-- `Char.ofNat` below the surrogate range keeps its value. -/
theorem toNat_ofNat_lt {n : Nat} (h : n < 55296) : (Char.ofNat n).toNat = n :=
  toNat_ofNat_valid (Or.inl h)

/-- A valid non-ASCII code point never yields the bracket character. -/
theorem bracket_ne_ofNat {n : Nat} (hv : Nat.isValidChar n) (h128 : 128 ≤ n) :
    ']' ≠ Char.ofNat n := by
  intro h
  have h1 := congrArg Char.toNat h
  rw [toNat_ofNat_valid hv, show (']').toNat = 93 from rfl] at h1
  omega

/-- Bounds carried by a continuation byte. -/
theorem isCont_bounds {b : Nat} (h : isCont b = true) : 128 ≤ b ∧ b < 192 := by
  simpa [isCont] using h

/-- Bounds carried by a valid first continuation after a three-byte lead. -/
theorem cont1ok3_bounds {b c1 : Nat} (h : cont1ok3 b c1 = true) :
    128 ≤ c1 ∧ c1 < 192 ∧ (b = 224 → 160 ≤ c1) ∧ (b = 237 → c1 < 160) := by
  simp only [cont1ok3, Bool.and_eq_true] at h
  obtain ⟨⟨hcont, h224⟩, h237⟩ := h
  have hc := isCont_bounds hcont
  refine ⟨hc.1, hc.2, ?_, ?_⟩
  · intro hb
    subst hb
    by_contra hlt
    push_neg at hlt
    simp [hlt] at h224
  · intro hb
    subst hb
    by_contra hge
    push_neg at hge
    simp [hge] at h237

/-- Bounds carried by a valid first continuation after a four-byte lead. -/
theorem cont1ok4_bounds {b c1 : Nat} (h : cont1ok4 b c1 = true) :
    128 ≤ c1 ∧ c1 < 192 ∧ (b = 240 → 144 ≤ c1) ∧ (b = 244 → c1 < 144) := by
  simp only [cont1ok4, Bool.and_eq_true] at h
  obtain ⟨⟨hcont, h240⟩, h244⟩ := h
  have hc := isCont_bounds hcont
  refine ⟨hc.1, hc.2, ?_, ?_⟩
  · intro hb
    subst hb
    by_contra hlt
    push_neg at hlt
    simp [hlt] at h240
  · intro hb
    subst hb
    by_contra hge
    push_neg at hge
    simp [hge] at h244

/-- The ignoring decoder never invents a closing bracket: every `]` in its
output consumes a `93` byte, since ASCII bytes decode to themselves and
every multi-byte sequence decodes to a code point at or above 128. -/
theorem decIgnoreF_no_bracket :
    ∀ (f : Nat) (l : Bytes), (93 : Nat) ∉ l → ']' ∉ decIgnoreF f l := by
  intro f
  induction f with
  | zero => intro l _; simp [decIgnoreF]
  | succ g ih =>
    intro l hnl
    cases l with
    | nil => simp [decIgnoreF]
    | cons b r =>
      have hb : b ≠ 93 := by
        intro h
        exact hnl (by simp [h])
      have hr : (93 : Nat) ∉ r := fun h => hnl (List.mem_cons_of_mem b h)
      simp only [decIgnoreF]
      by_cases h1 : b < 128
      · rw [if_pos h1]
        intro hmem
        rcases List.mem_cons.1 hmem with hc | hc
        · have h2 := congrArg Char.toNat hc
          rw [toNat_ofNat_lt (show b < 55296 by omega)] at h2
          exact hb (show b = 93 from h2.symm)
        · exact ih r hr hc
      · rw [if_neg h1]
        by_cases h2 : b < 194
        · rw [if_pos h2]
          exact ih r hr
        · rw [if_neg h2]
          by_cases h3 : b < 224
          · rw [if_pos h3]
            cases r with
            | nil => simp
            | cons c1 r1 =>
              have hr1 : (93 : Nat) ∉ r1 := fun h => hr (List.mem_cons_of_mem c1 h)
              by_cases hc1 : isCont c1 = true
              · simp only [if_pos hc1]
                obtain ⟨hcl, hcu⟩ := isCont_bounds hc1
                intro hmem
                rcases List.mem_cons.1 hmem with hc | hc
                · exact bracket_ne_ofNat (Or.inl (by omega)) (by omega) hc
                · exact ih r1 hr1 hc
              · simp only [if_neg hc1]
                exact ih _ hr
          · rw [if_neg h3]
            by_cases h4 : b < 240
            · rw [if_pos h4]
              cases r with
              | nil => simp
              | cons c1 r1 =>
                have hr1 : (93 : Nat) ∉ r1 := fun h => hr (List.mem_cons_of_mem c1 h)
                by_cases hc1 : cont1ok3 b c1 = true
                · simp only [if_pos hc1]
                  obtain ⟨hcl, hcu, h224, h237⟩ := cont1ok3_bounds hc1
                  cases r1 with
                  | nil => simp
                  | cons c2 r2 =>
                    have hr2 : (93 : Nat) ∉ r2 := fun h => hr1 (List.mem_cons_of_mem c2 h)
                    by_cases hc2 : isCont c2 = true
                    · simp only [if_pos hc2]
                      obtain ⟨hdl, hdu⟩ := isCont_bounds hc2
                      intro hmem
                      rcases List.mem_cons.1 hmem with hc | hc
                      · refine bracket_ne_ofNat ?_ (by omega) hc
                        by_cases hb237 : b ≤ 237
                        · rcases Nat.eq_or_lt_of_le hb237 with hbe | hbl
                          · left
                            have := h237 hbe
                            omega
                          · left
                            omega
                        · right
                          constructor <;> omega
                      · exact ih r2 hr2 hc
                    · simp only [if_neg hc2]
                      exact ih _ hr1
                · simp only [if_neg hc1]
                  exact ih _ hr
            · rw [if_neg h4]
              by_cases h5 : b < 245
              · rw [if_pos h5]
                cases r with
                | nil => simp
                | cons c1 r1 =>
                  have hr1 : (93 : Nat) ∉ r1 := fun h => hr (List.mem_cons_of_mem c1 h)
                  by_cases hc1 : cont1ok4 b c1 = true
                  · simp only [if_pos hc1]
                    obtain ⟨hcl, hcu, h240, h244⟩ := cont1ok4_bounds hc1
                    cases r1 with
                    | nil => simp
                    | cons c2 r2 =>
                      have hr2 : (93 : Nat) ∉ r2 := fun h => hr1 (List.mem_cons_of_mem c2 h)
                      by_cases hc2 : isCont c2 = true
                      · simp only [if_pos hc2]
                        obtain ⟨hdl, hdu⟩ := isCont_bounds hc2
                        cases r2 with
                        | nil => simp
                        | cons c3 r3 =>
                          have hr3 : (93 : Nat) ∉ r3 := fun h => hr2 (List.mem_cons_of_mem c3 h)
                          by_cases hc3 : isCont c3 = true
                          · simp only [if_pos hc3]
                            obtain ⟨hel, heu⟩ := isCont_bounds hc3
                            intro hmem
                            rcases List.mem_cons.1 hmem with hc | hc
                            · refine bracket_ne_ofNat ?_ (by omega) hc
                              right
                              by_cases hb240 : b = 240
                              · have := h240 hb240
                                subst hb240
                                constructor <;> omega
                              · by_cases hb244 : b = 244
                                · have := h244 hb244
                                  subst hb244
                                  constructor <;> omega
                                · constructor <;> omega
                            · exact ih r3 hr3 hc
                          · simp only [if_neg hc3]
                            exact ih _ hr2
                      · simp only [if_neg hc2]
                        exact ih _ hr1
                  · simp only [if_neg hc1]
                    exact ih _ hr
              · rw [if_neg h5]
                exact ih _ hr

/-- `decode(errors="ignore")` of a bracket-free byte string has no bracket. -/
theorem decodeIgnore_no_bracket {l : Bytes} (h : (93 : Nat) ∉ l) :
    ']' ∉ decodeIgnore l :=
  decIgnoreF_no_bracket (l.length + 1) l h

/-- The ignoring decoder is the identity (through `Char.ofNat`) on ASCII
byte strings. -/
theorem decIgnoreF_ascii :
    ∀ (f : Nat) (l : Bytes), l.length < f → (∀ x ∈ l, x < 128) →
      decIgnoreF f l = asStr l := by
  intro f
  induction f with
  | zero => intro l h _; omega
  | succ g ih =>
    intro l hl hall
    cases l with
    | nil => rfl
    | cons b r =>
      simp only [decIgnoreF]
      rw [if_pos (hall b (List.mem_cons_self b r)),
        ih r (by simp at hl; omega) (fun x hx => hall x (List.mem_cons_of_mem b hx))]
      rfl

/-- `decode(errors="ignore")` on ASCII bytes. -/
theorem decodeIgnore_ascii {l : Bytes} (h : ∀ x ∈ l, x < 128) :
    decodeIgnore l = asStr l :=
  decIgnoreF_ascii (l.length + 1) l (by omega) h

/-- The strict decoder succeeds identically on ASCII byte strings. -/
theorem decStrictF_ascii :
    ∀ (f : Nat) (l : Bytes), l.length < f → (∀ x ∈ l, x < 128) →
      decStrictF f l = some (asStr l) := by
  intro f
  induction f with
  | zero => intro l h _; omega
  | succ g ih =>
    intro l hl hall
    cases l with
    | nil => rfl
    | cons b r =>
      simp only [decStrictF]
      rw [if_pos (hall b (List.mem_cons_self b r)),
        ih r (by simp at hl; omega) (fun x hx => hall x (List.mem_cons_of_mem b hx))]
      rfl

/-- Strict decode on ASCII bytes. -/
theorem decodeStrict_ascii {l : Bytes} (h : ∀ x ∈ l, x < 128) :
    decodeStrict l = some (asStr l) :=
  decStrictF_ascii (l.length + 1) l (by omega) h

/-- Re-reading the code points of a string restores it. -/
theorem asStr_map_toNat (s : Str) : asStr (s.map Char.toNat) = s := by
  have h : Char.ofNat ∘ Char.toNat = id := funext Char.ofNat_toNat
  rw [asStr, List.map_map, h, List.map_id]

/-- The boolean ASCII check agrees with the predicate. -/
theorem asciiSb_iff {s : Str} : asciiSb s = true ↔ asciiS s := by
  simp [asciiSb, asciiS]

/-- UTF-8 of an ASCII character is its single code-point byte. -/
theorem utf8c_ascii {c : Char} (h : c.toNat < 128) : utf8c c = [c.toNat] := by
  unfold utf8c
  rw [if_pos h]

/-- UTF-8 of an ASCII string is its code points, byte for byte. -/
theorem utf8_ascii {s : Str} (h : asciiS s) : utf8 s = s.map Char.toNat := by
  induction s with
  | nil => rfl
  | cons a t ih =>
    show utf8c a ++ utf8 t = _
    rw [utf8c_ascii (h a (List.mem_cons_self a t)),
      ih (fun c hc => h c (List.mem_cons_of_mem a hc))]
    rfl

/-- On an all-ASCII byte file every decoded chunk is the matching character
slice, so the byte-level scan loop coincides with its character view. -/
theorem bScanLoopF_asStr {b : Bytes} (hb : ∀ x ∈ b, x < 128) :
    ∀ (f pos : Nat) (chunk : Str),
      bScanLoopF f b pos chunk = scanLoopF f (asStr b) pos chunk := by
  intro f
  induction f with
  | zero => intro pos chunk; rfl
  | succ g ih =>
    intro pos chunk
    rw [bScanLoopF, scanLoopF]
    by_cases hstop : ']' ∈ chunk ∨ pos = 0
    · rw [if_pos hstop, if_pos hstop]
    · rw [if_neg hstop, if_neg hstop]
      have hslice : decodeIgnore ((b.drop (pos - scanStep)).take
          (min scanStep (pos - scanStep + scanStep))) =
          ((asStr b).drop (pos - scanStep)).take (min scanStep (pos - scanStep + scanStep)) := by
        rw [decodeIgnore_ascii
          (fun x hx => hb x (List.mem_of_mem_drop (List.mem_of_mem_take hx)))]
        simp [asStr, List.map_take, List.map_drop]
      show bScanLoopF g b (pos - scanStep)
          (decodeIgnore ((b.drop (pos - scanStep)).take
            (min scanStep (pos - scanStep + scanStep))) ++ chunk) =
        scanLoopF g (asStr b) (pos - scanStep)
          (((asStr b).drop (pos - scanStep)).take
            (min scanStep (pos - scanStep + scanStep)) ++ chunk)
      rw [hslice, ih]

/-- On an all-ASCII byte file the whole backward scan coincides with its
character view. -/
theorem bracketScanB_asStr {b : Bytes} (hb : ∀ x ∈ b, x < 128) :
    bracketScanB b = bracketScan (asStr b) := by
  have hlen : (asStr b).length = b.length := by simp [asStr]
  have hchunk : decodeIgnore (b.drop (b.length - scanStep)) =
      (asStr b).drop (b.length - scanStep) := by
    rw [decodeIgnore_ascii (fun x hx => hb x (List.mem_of_mem_drop hx))]
    simp [asStr, List.map_drop]
  simp only [bracketScanB, bracketScan, hlen, hchunk, bScanLoopF_asStr hb]

/-- A chunk loop fed bracket-free chunks from a file with no `93` byte keeps
its chunk bracket-free. -/
theorem bScanLoopF_no_bracket {b : Bytes} (hb : (93 : Nat) ∉ b) :
    ∀ (f pos : Nat) (chunk : Str), ']' ∉ chunk →
      ']' ∉ (bScanLoopF f b pos chunk).2 := by
  intro f
  induction f with
  | zero => intro pos chunk hc; simpa [bScanLoopF] using hc
  | succ g ih =>
    intro pos chunk hc
    rw [bScanLoopF]
    by_cases hstop : ']' ∈ chunk ∨ pos = 0
    · rw [if_pos hstop]; exact hc
    · rw [if_neg hstop]
      apply ih
      intro hmem
      rcases List.mem_append.1 hmem with hm | hm
      · exact decodeIgnore_no_bracket
          (fun h93 => hb (List.mem_of_mem_drop (List.mem_of_mem_take h93))) hm
      · exact hc hm

/-- A file with no `93` byte fails the backward scan: there is no bracket
for it to find. -/
theorem bracketScanB_none {b : Bytes} (hb : (93 : Nat) ∉ b) : bracketScanB b = none := by
  simp only [bracketScanB]
  rw [rfindIdx_eq_none.2 (bScanLoopF_no_bracket hb _ _ _
    (decodeIgnore_no_bracket (fun h => hb (List.mem_of_mem_drop h))))]
  rfl

/-- Byte splicing commutes with the code-point embedding of ASCII text. -/
theorem spliceAtB_map (s t : Str) (p : Nat) :
    spliceAtB (s.map Char.toNat) p (t.map Char.toNat) =
      (spliceAt s p t).map Char.toNat := by
  unfold spliceAtB spliceAt
  simp [List.map_take, List.map_drop]

/-- Claim C10 (amended): on a non-empty all-ASCII ledger file containing a
closing bracket, the backward scan's write position is exactly the byte
position of the last bracket (byte and character offsets coincide on ASCII
contents, `asStr` being the decoded file), the append returns normally by
splicing the encoded tail there without truncating, and every byte of the
file before that position is identical before and after the append.  On
non-ASCII files the write position `pos + chunk.rfind("]")` adds a character
index to a byte offset and lands early; see the counterexample. -/
theorem C10_append_preserves_prefix (b : Bytes) (e : Entry)
    (hascii : ∀ x ∈ b, x < 128) (hne : b ≠ []) (hbr : (93 : Nat) ∈ b) :
    ∃ j, rfindIdx ']' (asStr b) = some j ∧
      append_json_array e (some b) = Except.ok (spliceAtB b j (utf8 (spliceTail e))) ∧
      (spliceAtB b j (utf8 (spliceTail e))).take j = b.take j := by
  have hlen : b.length ≠ 0 := by
    cases b
    · exact absurd rfl hne
    · simp
  have hbr' : ']' ∈ asStr b := List.mem_map.2 ⟨93, hbr, by decide⟩
  obtain ⟨j, hj⟩ : ∃ j, rfindIdx ']' (asStr b) = some j := by
    rcases hh : rfindIdx ']' (asStr b) with _ | j
    · exact absurd (rfindIdx_eq_none.1 hh) (by simpa using hbr')
    · exact ⟨j, rfl⟩
  refine ⟨j, hj, ?_, ?_⟩
  · simp only [append_json_array, bracketScanB_asStr hascii, bracketScan_spec, hj,
      if_neg hlen]
  · have hjl : (b.take j).length = j := by
      rw [List.length_take]
      have := rfindIdx_some_lt hj
      simp only [asStr, List.length_map] at this
      omega
    unfold spliceAtB
    rw [List.append_assoc, List.take_left' hjl]

/-- Witness for C10 at the concrete two-byte ledger `[]` (bytes `91 93`). -/
theorem C10_append_preserves_prefix_witness :
    ∃ j, rfindIdx ']' (asStr [91, 93]) = some j ∧
      append_json_array [] (some [91, 93]) =
        Except.ok (spliceAtB [91, 93] j (utf8 (spliceTail []))) ∧
      (spliceAtB [91, 93] j (utf8 (spliceTail []))).take j = ([91, 93] : Bytes).take j :=
  C10_append_preserves_prefix [91, 93] [] (by decide) (by decide) (by decide)

/-- Counterexample to claim C10 as stated: on the non-ASCII ledger
`nonAsciiLedger` the last closing bracket is the byte `93` at byte position
29 (nothing after it is a bracket), yet the append returns normally with a
file that differs from the original already at byte 27 (the record's closing
brace is overwritten by the comma of the spliced tail): the bytes before the
last bracket are not preserved. -/
theorem C10_counterexample_multibyte :
    ((93 : Nat) ∈ nonAsciiLedger ∧
      nonAsciiLedger.take 30 = nonAsciiLedger.take 29 ++ [93] ∧
      (93 : Nat) ∉ nonAsciiLedger.drop 30) ∧
    ∃ r, append_json_array [] (some nonAsciiLedger) = Except.ok r ∧
      r.take 29 ≠ nonAsciiLedger.take 29 :=
  ⟨by decide, spliceAtB nonAsciiLedger 27 (utf8 (spliceTail [])), rfl, by decide⟩

/-- Appending one record extends the tail part of the closed form. -/
theorem restPart_append (xs : List Entry) (e : Entry) :
    restPart (xs ++ [e]) = restPart xs ++ (',' :: '\n' :: serEntry 0 e ++ ['\n']) := by
  induction xs with
  | nil => rfl
  | cons y ys ih => simp [restPart, ih]

/-- The closed form of the ledger splits into everything before the final
bracket, the bracket, and an optional trailing newline. -/
theorem contentsAfter_decomp (x : Entry) (xs : List Entry) :
    contentsAfter (x :: xs) =
      ('[' :: '\n' :: pad 1 ++ serEntry 1 x ++ '\n' :: restPart xs) ++
        ']' :: (if xs.isEmpty then ['\n'] else []) := by
  simp [contentsAfter]

/-- Appending preserves the ASCII predicate. -/
theorem asciiS_append {a b : Str} (ha : asciiS a) (hb : asciiS b) : asciiS (a ++ b) := by
  intro c hc
  rcases List.mem_append.1 hc with h | h
  · exact ha c h
  · exact hb c h

/-- Prepending an ASCII character preserves the ASCII predicate. -/
theorem asciiS_cons {c : Char} {s : Str} (hc : c.toNat < 128) (hs : asciiS s) :
    asciiS (c :: s) := by
  intro x hx
  rcases List.mem_cons.1 hx with rfl | hx
  · exact hc
  · exact hs x hx

/-- Indentation is ASCII. -/
theorem pad_ascii (n : Nat) : asciiS (pad n) := by
  intro c hc
  rw [List.eq_of_mem_replicate hc]
  decide

/-- Hex digit characters are ASCII. -/
theorem hexDigitChar_ascii (n : Nat) : (hexDigitChar n).toNat < 128 := by
  unfold hexDigitChar
  split <;> decide

/-- The escape of an ASCII character is ASCII. -/
theorem escChar_ascii {c : Char} (h : c.toNat < 128) : asciiS (escChar c) := by
  unfold escChar
  split_ifs with h1 h2 h3 h4 h5 h6 h7 h8 <;> intro x hx
  · rcases List.mem_cons.1 hx with rfl | hx
    · decide
    · rw [List.mem_singleton] at hx; subst hx; decide
  · rcases List.mem_cons.1 hx with rfl | hx
    · decide
    · rw [List.mem_singleton] at hx; subst hx; decide
  · rcases List.mem_cons.1 hx with rfl | hx
    · decide
    · rw [List.mem_singleton] at hx; subst hx; decide
  · rcases List.mem_cons.1 hx with rfl | hx
    · decide
    · rw [List.mem_singleton] at hx; subst hx; decide
  · rcases List.mem_cons.1 hx with rfl | hx
    · decide
    · rw [List.mem_singleton] at hx; subst hx; decide
  · rcases List.mem_cons.1 hx with rfl | hx
    · decide
    · rw [List.mem_singleton] at hx; subst hx; decide
  · rcases List.mem_cons.1 hx with rfl | hx
    · decide
    · rw [List.mem_singleton] at hx; subst hx; decide
  · rcases List.mem_cons.1 hx with rfl | hx
    · decide
    rcases List.mem_cons.1 hx with rfl | hx
    · decide
    rcases List.mem_cons.1 hx with rfl | hx
    · decide
    rcases List.mem_cons.1 hx with rfl | hx
    · decide
    rcases List.mem_cons.1 hx with rfl | hx
    · exact hexDigitChar_ascii _
    rw [List.mem_singleton] at hx
    subst hx
    exact hexDigitChar_ascii _
  · rw [List.mem_singleton] at hx
    subst hx
    exact h

/-- The escape of an ASCII string is ASCII. -/
theorem escStr_ascii {s : Str} (h : asciiS s) : asciiS (escStr s) := by
  induction s with
  | nil => intro c hc; simp [escStr] at hc
  | cons a t ih =>
    show asciiS (escChar a ++ escStr t)
    exact asciiS_append (escChar_ascii (h a (List.mem_cons_self a t)))
      (ih fun c hc => h c (List.mem_cons_of_mem a hc))

/-- Decimal digits are ASCII. -/
theorem natDigits_ascii (n : Nat) : asciiS (natDigits n) := by
  intro c hc
  have h := natDigits_all_digits n c hc
  simp only [isDigit10, Bool.and_eq_true, decide_eq_true_eq] at h
  omega

/-- Integer representations are ASCII. -/
theorem intDigits_ascii (n : Int) : asciiS (intDigits n) := by
  intro c hc
  unfold intDigits at hc
  rcases List.mem_append.1 hc with h | h
  · split_ifs at h
    · rw [List.mem_singleton] at h; subst h; decide
    · simp at h
  · exact natDigits_ascii _ c h

/-- The serialization of an ASCII primitive is ASCII. -/
theorem serPrim_ascii {p : Prim} (h : primAscii p = true) : asciiS (serPrim p) := by
  cases p with
  | str s =>
    have hs : asciiS s := asciiSb_iff.1 h
    show asciiS ('"' :: escStr s ++ ['"'])
    refine asciiS_cons (by decide) (asciiS_append (escStr_ascii hs) ?_)
    intro c hc
    rw [List.mem_singleton] at hc
    subst hc
    decide
  | int n => exact intDigits_ascii n
  | bool b => cases b <;> decide
  | null => decide

/-- The serialization of an ASCII member line is ASCII. -/
theorem serMember_ascii {ind : Nat} {kv : Str × Prim} (hk : asciiSb kv.1 = true)
    (hv : primAscii kv.2 = true) : asciiS (serMember ind kv) := by
  show asciiS ((pad ind ++ ('"' :: escStr kv.1)) ++ ('"' :: ':' :: ' ' :: serPrim kv.2))
  exact asciiS_append
    (asciiS_append (pad_ascii ind) (asciiS_cons (by decide) (escStr_ascii (asciiSb_iff.1 hk))))
    (asciiS_cons (by decide) (asciiS_cons (by decide) (asciiS_cons (by decide)
      (serPrim_ascii hv))))

/-- The serialized member lines of an ASCII record are ASCII. -/
theorem serMembers_ascii (ind : Nat) :
    ∀ e : Entry, entryAscii e = true → asciiS (serMembers ind e) := by
  intro e
  induction e with
  | nil => intro _ c hc; simp [serMembers] at hc
  | cons kv rest ih =>
    intro h
    have h' := h
    simp only [entryAscii, List.all_cons, Bool.and_eq_true] at h'
    obtain ⟨⟨hk, hv⟩, hrest⟩ := h'
    cases rest with
    | nil => exact serMember_ascii hk hv
    | cons kv2 rest2 =>
      show asciiS (serMember ind kv ++ ',' :: '\n' :: serMembers ind (kv2 :: rest2))
      refine asciiS_append (serMember_ascii hk hv) (asciiS_cons (by decide)
        (asciiS_cons (by decide) (ih ?_)))
      simp only [entryAscii]
      exact hrest

/-- The serialization of an ASCII record is ASCII. -/
theorem serEntry_ascii (ind : Nat) {e : Entry} (h : entryAscii e = true) :
    asciiS (serEntry ind e) := by
  unfold serEntry
  split_ifs with he
  · decide
  · exact asciiS_cons (by decide) (asciiS_cons (by decide)
      (asciiS_append
        (asciiS_append (serMembers_ascii _ e h) (asciiS_cons (by decide) (pad_ascii ind)))
        (by decide)))

/-- The spliced tail of an ASCII record is ASCII. -/
theorem spliceTail_ascii {e : Entry} (h : entryAscii e = true) :
    asciiS (spliceTail e) := by
  show asciiS ((',' :: '\n' :: serEntry 0 e) ++ ('\n' :: [']']))
  exact asciiS_append
    (asciiS_cons (by decide) (asciiS_cons (by decide) (serEntry_ascii 0 h)))
    (by decide)

/-- The tail of the closed form over ASCII records is ASCII. -/
theorem restPart_ascii : ∀ l : List Entry, (∀ e ∈ l, entryAscii e = true) →
    asciiS (restPart l) := by
  intro l
  induction l with
  | nil => intro _ c hc; simp [restPart] at hc
  | cons e rest ih =>
    intro h
    show asciiS ((',' :: '\n' :: serEntry 0 e) ++ ('\n' :: restPart rest))
    exact asciiS_append
      (asciiS_cons (by decide) (asciiS_cons (by decide)
        (serEntry_ascii 0 (h e (List.mem_cons_self e rest)))))
      (asciiS_cons (by decide) (ih fun e' he' => h e' (List.mem_cons_of_mem e he')))

/-- The closed-form ledger contents over ASCII records are ASCII. -/
theorem contentsAfter_ascii : ∀ l : List Entry, (∀ e ∈ l, entryAscii e = true) →
    asciiS (contentsAfter l) := by
  intro l h
  cases l with
  | nil => intro c hc; simp [contentsAfter] at hc
  | cons x xs =>
    show asciiS ((('[' :: '\n' :: pad 1) ++ serEntry 1 x) ++ ('\n' ::
      (restPart xs ++ (']' :: (if xs.isEmpty then ['\n'] else [])))))
    refine asciiS_append
      (asciiS_append (asciiS_cons (by decide) (asciiS_cons (by decide) (pad_ascii 1)))
        (serEntry_ascii 1 (h x (List.mem_cons_self x xs))))
      (asciiS_cons (by decide)
        (asciiS_append (restPart_ascii xs fun e' he' => h e' (List.mem_cons_of_mem x he'))
          (asciiS_cons (by decide) ?_)))
    by_cases hxs : xs.isEmpty = true
    · rw [if_pos hxs]
      decide
    · rw [if_neg hxs]
      decide

/-- The position of the final bracket in the closed form, and the effect of
splicing the next record's tail there. -/
theorem splice_closed (e x : Entry) (xs : List Entry) :
    ∃ L, rfindIdx ']' (contentsAfter (x :: xs)) = some L ∧
      spliceAt (contentsAfter (x :: xs)) L (spliceTail e) =
        contentsAfter (x :: (xs ++ [e])) := by
  have hnlb : ']' ∉ (if xs.isEmpty then ['\n'] else ([] : Str)) := by
    by_cases hxs : xs.isEmpty <;> simp [hxs]
  refine ⟨('[' :: '\n' :: pad 1 ++ serEntry 1 x ++ '\n' :: restPart xs).length, ?_, ?_⟩
  · rw [contentsAfter_decomp]
    exact rfindIdx_last_bracket _ _ hnlb
  · rw [contentsAfter_decomp]
    unfold spliceAt
    rw [List.take_left]
    have hdrop : (('[' :: '\n' :: pad 1 ++ serEntry 1 x ++ '\n' :: restPart xs) ++
        ']' :: (if xs.isEmpty then ['\n'] else [])).drop
          (('[' :: '\n' :: pad 1 ++ serEntry 1 x ++ '\n' :: restPart xs).length +
            (spliceTail e).length) = [] := by
      apply List.drop_eq_nil_of_le
      have h1 : (spliceTail e).length = 4 + (serEntry 0 e).length := by
        simp [spliceTail]
        omega
      have h2 : (if xs.isEmpty then ['\n'] else ([] : Str)).length ≤ 1 := by
        by_cases hxs : xs.isEmpty <;> simp [hxs]
      simp only [List.length_append, List.length_cons]
      omega
    rw [hdrop, List.append_nil]
    have hxs : (xs ++ [e]).isEmpty = false := by
      cases xs <;> rfl
    rw [contentsAfter_decomp, restPart_append, hxs]
    simp [spliceTail]

/-- One append on the encoded closed-form ledger of ASCII records splices the
new record before the final bracket, byte-exactly. -/
theorem append_stepB (e x : Entry) (xs : List Entry) (hx : entryAscii x = true)
    (hxs : ∀ e' ∈ xs, entryAscii e' = true) (he : entryAscii e = true) :
    append_json_array e (some (utf8 (contentsAfter (x :: xs)))) =
      Except.ok (utf8 (contentsAfter (x :: (xs ++ [e])))) := by
  have hall : ∀ e' ∈ x :: xs, entryAscii e' = true := by
    intro e' he'
    rcases List.mem_cons.1 he' with rfl | he'
    · exact hx
    · exact hxs e' he'
  have hca : asciiS (contentsAfter (x :: xs)) := contentsAfter_ascii _ hall
  have hb : utf8 (contentsAfter (x :: xs)) = (contentsAfter (x :: xs)).map Char.toNat :=
    utf8_ascii hca
  have hball : ∀ n ∈ (contentsAfter (x :: xs)).map Char.toNat, n < 128 := by
    intro n hn
    rcases List.mem_map.1 hn with ⟨c, hc, rfl⟩
    exact hca c hc
  have hneB : ((contentsAfter (x :: xs)).map Char.toNat).length ≠ 0 := by
    rw [List.length_map, contentsAfter_decomp]
    simp
  obtain ⟨L, hL, hsplice⟩ := splice_closed e x xs
  have hscan : bracketScanB ((contentsAfter (x :: xs)).map Char.toNat) = some L := by
    rw [bracketScanB_asStr hball, asStr_map_toNat, bracketScan_spec, hL]
  have hext : ∀ e' ∈ x :: (xs ++ [e]), entryAscii e' = true := by
    intro e' he'
    rcases List.mem_cons.1 he' with rfl | he'
    · exact hx
    rcases List.mem_append.1 he' with he' | he'
    · exact hxs e' he'
    · rw [List.mem_singleton] at he'
      subst he'
      exact he
  rw [hb]
  simp only [append_json_array, if_neg hneB, hscan]
  rw [utf8_ascii (spliceTail_ascii he), spliceAtB_map, hsplice,
    utf8_ascii (contentsAfter_ascii _ hext)]

/-- Sequential appends extend the encoded closed form one ASCII record at a
time. -/
theorem appendAll_closedB (rest : List Entry) :
    ∀ (x : Entry) (xs : List Entry), entryAscii x = true →
      (∀ e' ∈ xs, entryAscii e' = true) → (∀ e' ∈ rest, entryAscii e' = true) →
      appendAll rest (some (utf8 (contentsAfter (x :: xs)))) =
        Except.ok (some (utf8 (contentsAfter (x :: (xs ++ rest))))) := by
  induction rest with
  | nil => intro x xs _ _ _; simp [appendAll]
  | cons e rest' ih =>
    intro x xs hx hxs hrest
    rw [appendAll, append_stepB e x xs hx hxs (hrest e (List.mem_cons_self e rest'))]
    show appendAll rest' (some (utf8 (contentsAfter (x :: (xs ++ [e]))))) =
      Except.ok (some (utf8 (contentsAfter (x :: (xs ++ e :: rest')))))
    have hxse : ∀ e' ∈ xs ++ [e], entryAscii e' = true := by
      intro e' he'
      rcases List.mem_append.1 he' with he' | he'
      · exact hxs e' he'
      · rw [List.mem_singleton] at he'
        rw [he']
        exact hrest e (List.mem_cons_self e rest')
    rw [ih x (xs ++ [e]) hx hxse (fun e' he' => hrest e' (List.mem_cons_of_mem e he'))]
    simp

/-- Starting from an absent ledger file, the appends of ASCII records produce
exactly the encoded closed-form contents. -/
theorem appendAll_fromNoneB (x : Entry) (xs : List Entry) (hx : entryAscii x = true)
    (hxs : ∀ e' ∈ xs, entryAscii e' = true) :
    appendAll (x :: xs) none = Except.ok (some (utf8 (contentsAfter (x :: xs)))) := by
  rw [appendAll]
  show appendAll xs (some (utf8 (createContents x))) = _
  rw [show createContents x = contentsAfter [x] from rfl]
  rw [appendAll_closedB xs x [] hx (by simp) hxs]
  simp

/-- Counterexample to claim C2 as stated at `N = 0`: zero appends to an
absent ledger file leave the file absent, so there is no file whose contents
could parse as the empty JSON array. -/
theorem C2_counterexample_zero_appends : ¬ ∃ s, appendAll [] none = Except.ok (some s) := by
  rintro ⟨s, h⟩
  simp [appendAll] at h

/-- Counterexample to claim C6 as stated: a one-byte ledger reading `5`
(byte `53`) has no closing bracket, and its fallback parse yields a truthy
non-list, so `existing.append(entry)` raises an `AttributeError`: the append
raises with the file unchanged instead of rewriting it as a JSON array. -/
theorem C6_counterexample_truthy_scalar :
    append_json_array [] (some [53]) = Except.error [53] := rfl

/-- Claim C6 (amended): on an existing ledger file with no `93` byte (so the
backward scan finds no closing bracket in any decoded chunk) that `json.load`
decodes as UTF-8, the fallback runs but never completes the rewrite: the
rewrite path opens with `f.truncate()` and then `json.dump` raises a
`TypeError` (it writes `str` to the binary `rb+` handle), so unparsable,
falsy or array content leaves an empty file behind an escaping exception,
while content parsing to a truthy non-array raises an `AttributeError` at
`existing.append` with the file unchanged. -/
theorem C6_fallback_behaviour (b : Bytes) (e : Entry) (hne : b ≠ [])
    (hnb : (93 : Nat) ∉ b) (hdet : detect_encoding b = Enc.utf8) :
    append_json_array e (some b) = fallbackAppendB e b ∧
    (∃ st, fallbackAppendB e b = Except.error st) ∧
    ((decodeStrict b).bind json_load = none → fallbackAppendB e b = Except.error []) ∧
    (∀ v, (decodeStrict b).bind json_load = some v → v.isTruthy = false →
      fallbackAppendB e b = Except.error []) ∧
    (∀ xs, (decodeStrict b).bind json_load = some (Json.arr xs) →
      fallbackAppendB e b = Except.error []) ∧
    (∀ v, (decodeStrict b).bind json_load = some v → v.isTruthy = true →
      (∀ xs, v ≠ Json.arr xs) → fallbackAppendB e b = Except.error b) := by
  have hlen : b.length ≠ 0 := by
    cases b
    · exact absurd rfl hne
    · simp
  have hjl : json_loadb b = (decodeStrict b).bind json_load := by
    unfold json_loadb
    rw [hdet]
  refine ⟨?_, ?_, ?_, ?_, ?_, ?_⟩
  · simp only [append_json_array, if_neg hlen, bracketScanB_none hnb]
  · rcases hjv : (decodeStrict b).bind json_load with _ | v
    · exact ⟨[], by unfold fallbackAppendB; rw [hjl, hjv]⟩
    · by_cases htr : v.isTruthy = true
      · cases v with
        | null => exact ⟨b, by unfold fallbackAppendB; rw [hjl, hjv]; simp [htr]⟩
        | bool x => exact ⟨b, by unfold fallbackAppendB; rw [hjl, hjv]; simp [htr]⟩
        | num x1 x2 x3 x4 => exact ⟨b, by unfold fallbackAppendB; rw [hjl, hjv]; simp [htr]⟩
        | nan => exact ⟨b, by unfold fallbackAppendB; rw [hjl, hjv]; simp [htr]⟩
        | inf x => exact ⟨b, by unfold fallbackAppendB; rw [hjl, hjv]; simp [htr]⟩
        | str s => exact ⟨b, by unfold fallbackAppendB; rw [hjl, hjv]; simp [htr]⟩
        | arr xs => exact ⟨[], by unfold fallbackAppendB; rw [hjl, hjv]; simp [htr]⟩
        | obj ms => exact ⟨b, by unfold fallbackAppendB; rw [hjl, hjv]; simp [htr]⟩
      · exact ⟨[], by unfold fallbackAppendB; rw [hjl, hjv]; simp [htr]⟩
  · intro h
    unfold fallbackAppendB
    rw [hjl, h]
  · intro v h htr
    unfold fallbackAppendB
    rw [hjl, h]
    simp [htr]
  · intro xs h
    unfold fallbackAppendB
    rw [hjl, h]
    by_cases htr : (Json.arr xs).isTruthy = true <;> simp [htr]
  · intro v h htr hnarr
    cases v with
    | arr xs => exact absurd rfl (hnarr xs)
    | _ =>
      unfold fallbackAppendB
      rw [hjl, h]
      simp [htr]

/-- Witness for C6 at the concrete no-bracket content `\x7b\x7d` (an empty
JSON object, bytes `123 125`). -/
theorem C6_fallback_behaviour_witness :
    append_json_array [] (some [123, 125]) = fallbackAppendB [] [123, 125] :=
  (C6_fallback_behaviour [123, 125] [] (by decide) (by decide) (by decide)).1

/-- Claim C7: `human_elapsed` maps 500000 ns to `"500000ns"`, 1000000 ns to
`"1ms"`, and 60000000000 ns to `"1.00m"`. -/
theorem C7_human_elapsed_values :
    human_elapsed 500000 = "500000ns".toList ∧
      human_elapsed 1000000 = "1ms".toList ∧
      human_elapsed 60000000000 = "1.00m".toList :=
  ⟨by decide, by decide, by decide⟩

/-- Digits are not JSON whitespace. -/
theorem digit_not_wsJ {c : Char} (h : isDigit10 c = true) : isWsJ c = false := by
  have hc : 48 ≤ c.toNat ∧ c.toNat ≤ 57 := by
    simpa [isDigit10, Bool.and_eq_true, decide_eq_true_eq] using h
  have e1 : (' ' : Char).toNat = 32 := by decide
  have e2 : ('\t' : Char).toNat = 9 := by decide
  have e3 : ('\n' : Char).toNat = 10 := by decide
  have e4 : ('\r' : Char).toNat = 13 := by decide
  simp only [isWsJ, Bool.or_eq_false_iff, decide_eq_false_iff_not, charEq_iff_toNat,
    e1, e2, e3, e4]
  omega

/-- The numeric bounds of a digit character. -/
theorem digit_bounds {c : Char} (h : isDigit10 c = true) : 48 ≤ c.toNat ∧ c.toNat ≤ 57 := by
  simpa [isDigit10, Bool.and_eq_true, decide_eq_true_eq] using h

/-- A digit differs from any character outside the digit code range. -/
theorem digit_ne_of_toNat {c k : Char} (h : isDigit10 c = true)
    (hk : k.toNat < 48 ∨ 57 < k.toNat) : ¬ c = k := by
  have hc := digit_bounds h
  rw [charEq_iff_toNat]
  omega

/-- Indentation is JSON whitespace. -/
theorem pad_all_wsJ (n : Nat) : ∀ c ∈ pad n, isWsJ c = true := by
  intro c hc
  rw [List.eq_of_mem_replicate hc]
  decide

/-- Skipping whitespace passes over an all-whitespace prefix. -/
theorem skipWs_ws_append {w cs : Str} (h : ∀ c ∈ w, isWsJ c = true) :
    skipWs (w ++ cs) = skipWs cs := by
  unfold skipWs
  exact dropWhile_append_all h

/-- Skipping whitespace stops at a non-whitespace head. -/
theorem skipWs_cons_nonws {c : Char} {cs : Str} (h : isWsJ c = false) :
    skipWs (c :: cs) = c :: cs := by
  unfold skipWs
  exact List.dropWhile_cons_of_neg (by simp [h])

/-- A mismatched head refutes a prefix test. -/
theorem startsWithL_cons_ne {a b : Char} {p s : Str} (h : ¬ a = b) :
    startsWithL (a :: p) (b :: s) = false := by
  simp [startsWithL, h]

/-- Hex digits parse back to their value. -/
theorem hexValOf_hexDigitChar {n : Nat} (h : n < 16) :
    hexValOf (hexDigitChar n) = some n := by
  interval_cases n <;> decide

/-- Escaping does not shorten a string. -/
theorem escStr_length (s : Str) : s.length ≤ (escStr s).length := by
  induction s with
  | nil => simp [escStr]
  | cons c s' ih =>
    have hc : 1 ≤ (escChar c).length := by
      unfold escChar
      split_ifs <;> simp
    simp only [escStr, List.length_append, List.length_cons]
    omega

/-- The JSON string escaper and the string-body parser are inverse: with
enough fuel, the escaped text followed by the closing quote parses back to
the original characters with the remainder untouched. -/
theorem parseStringBody_escape (s : Str) : ∀ (f : Nat) (rest : Str), s.length < f →
    parseStringBody f (escStr s ++ '"' :: rest) = some (s, rest) := by
  induction s with
  | nil =>
    intro f rest hf
    rcases f with _ | f'
    · omega
    · rfl
  | cons c s' ih =>
    intro f rest hf
    rcases f with _ | f'
    · omega
    have hf' : s'.length < f' := by
      simp only [List.length_cons] at hf
      omega
    show parseStringBody (f' + 1) ((escChar c ++ escStr s') ++ '"' :: rest) =
      some (c :: s', rest)
    rw [List.append_assoc]
    unfold escChar
    split_ifs with h1 h2 h3 h4 h5 h6 h7 h8 <;>
      simp only [List.cons_append, List.nil_append]
    · subst h1
      rw [show parseStringBody (f' + 1) ('\\' :: '"' :: (escStr s' ++ '"' :: rest)) =
        (match parseStringBody f' (escStr s' ++ '"' :: rest) with
         | some (a, r) => some ('"' :: a, r)
         | none => none) from rfl, ih f' rest hf']
    · subst h2
      rw [show parseStringBody (f' + 1) ('\\' :: '\\' :: (escStr s' ++ '"' :: rest)) =
        (match parseStringBody f' (escStr s' ++ '"' :: rest) with
         | some (a, r) => some ('\\' :: a, r)
         | none => none) from rfl, ih f' rest hf']
    · subst h3
      rw [show parseStringBody (f' + 1) ('\\' :: 'n' :: (escStr s' ++ '"' :: rest)) =
        (match parseStringBody f' (escStr s' ++ '"' :: rest) with
         | some (a, r) => some ('\n' :: a, r)
         | none => none) from rfl, ih f' rest hf']
    · subst h4
      rw [show parseStringBody (f' + 1) ('\\' :: 'r' :: (escStr s' ++ '"' :: rest)) =
        (match parseStringBody f' (escStr s' ++ '"' :: rest) with
         | some (a, r) => some ('\r' :: a, r)
         | none => none) from rfl, ih f' rest hf']
    · subst h5
      rw [show parseStringBody (f' + 1) ('\\' :: 't' :: (escStr s' ++ '"' :: rest)) =
        (match parseStringBody f' (escStr s' ++ '"' :: rest) with
         | some (a, r) => some ('\t' :: a, r)
         | none => none) from rfl, ih f' rest hf']
    · subst h6
      rw [show parseStringBody (f' + 1) ('\\' :: 'b' :: (escStr s' ++ '"' :: rest)) =
        (match parseStringBody f' (escStr s' ++ '"' :: rest) with
         | some (a, r) => some (Char.ofNat 8 :: a, r)
         | none => none) from rfl, ih f' rest hf']
    · subst h7
      rw [show parseStringBody (f' + 1) ('\\' :: 'f' :: (escStr s' ++ '"' :: rest)) =
        (match parseStringBody f' (escStr s' ++ '"' :: rest) with
         | some (a, r) => some (Char.ofNat 12 :: a, r)
         | none => none) from rfl, ih f' rest hf']
    · have hhi : c.toNat / 16 < 16 := by omega
      have hlo : c.toNat % 16 < 16 := by omega
      simp only [parseStringBody, if_neg (show ¬ ('\\' : Char) = '"' by decide),
        if_pos (rfl : ('\\' : Char) = '\\'), if_pos (rfl : ('u' : Char) = 'u'),
        hexValOf_hexDigitChar hhi, hexValOf_hexDigitChar hlo, if_true,
        show hexValOf '0' = some 0 from by decide, ih f' rest hf',
        show ((0 * 16 + 0) * 16 + c.toNat / 16) * 16 + c.toNat % 16 = c.toNat from by omega,
        Char.ofNat_toNat]
    · have hge : 32 ≤ c.toNat := by omega
      simp only [List.singleton_append, parseStringBody, if_neg h1, if_neg h2, if_pos hge,
        ih f' rest hf']

/-- A decimal representation always starts with a digit. -/
theorem natDigits_cons (n : Nat) : ∃ d ds, natDigits n = d :: ds ∧ isDigit10 d = true := by
  rcases hnd : natDigits n with _ | ⟨d, ds⟩
  · exact absurd hnd (natDigits_ne_nil n)
  · exact ⟨d, ds, rfl, natDigits_all_digits n d (by rw [hnd]; exact List.mem_cons_self d ds)⟩

/-- The decimal representation of a positive number has no leading zero. -/
theorem natDigitsAux_pos_head :
    ∀ f n, n < f → 1 ≤ n → ∃ d ds, natDigitsAux f n = d :: ds ∧ ¬ d = '0' := by
  intro f
  induction f with
  | zero => intro n h; omega
  | succ g ih =>
    intro n hn h1
    rw [natDigitsAux]
    by_cases h10 : n < 10
    · refine ⟨digitChar n, [], by simp [h10], ?_⟩
      interval_cases n <;> decide
    · have hdiv : n / 10 < g := by
        have := Nat.div_lt_self (by omega : 0 < n) (by omega : 1 < 10)
        omega
      have h1' : 1 ≤ n / 10 := by
        have := Nat.div_le_div_right (c := 10) (by omega : 10 ≤ n)
        simpa using this
      obtain ⟨d, ds, hds, hd⟩ := ih (n / 10) hdiv h1'
      exact ⟨d, ds ++ [digitChar (n % 10)], by simp [h10, hds], hd⟩

/-- Head decomposition of a positive decimal representation. -/
theorem natDigits_pos_head (n : Nat) (h : 1 ≤ n) :
    ∃ d ds, natDigits n = d :: ds ∧ ¬ d = '0' := by
  exact natDigitsAux_pos_head (n + 1) n (Nat.lt_succ_self n) h

/-- A number-stopping remainder yields no further digits. -/
theorem numStop_takeWhile {rest : Str} (h : numStopAt rest) :
    rest.takeWhile isDigit10 = [] := by
  cases rest with
  | nil => rfl
  | cons c cs =>
    obtain ⟨h1, _, _, _⟩ := h
    exact List.takeWhile_cons_of_neg (by simp [h1])

/-- A number-stopping remainder is not consumed by the digit scan. -/
theorem numStop_dropWhile {rest : Str} (h : numStopAt rest) :
    rest.dropWhile isDigit10 = rest := by
  cases rest with
  | nil => rfl
  | cons c cs =>
    obtain ⟨h1, _, _, _⟩ := h
    exact List.dropWhile_cons_of_neg (by simp [h1])

/-- No fraction part begins at a number-stopping remainder. -/
theorem numStop_fracPart {rest : Str} (h : numStopAt rest) : fracPart rest = ([], rest) := by
  cases rest with
  | nil => rfl
  | cons c cs =>
    obtain ⟨_, h2, _, _⟩ := h
    simp [fracPart, h2]

/-- No exponent part begins at a number-stopping remainder. -/
theorem numStop_expPart {rest : Str} (h : numStopAt rest) : expPart rest = ([], rest) := by
  cases rest with
  | nil => rfl
  | cons c cs =>
    obtain ⟨_, _, h3, h4⟩ := h
    simp [expPart, h3, h4]

/-- A serialized natural number parses back as a number token with exactly
its digits, leaving a number-stopping remainder untouched. -/
theorem parseNumMag_natDigits (neg : Bool) (n : Nat) (rest : Str) (h : numStopAt rest) :
    parseNumMag neg (natDigits n ++ rest) = some (Json.num neg (natDigits n) [] [], rest) := by
  by_cases hn : n = 0
  · subst hn
    rw [show natDigits 0 ++ rest = '0' :: rest from rfl]
    rw [show parseNumMag neg ('0' :: rest) =
      some (Json.num neg ['0'] (fracPart rest).1 (expPart (fracPart rest).2).1,
        (expPart (fracPart rest).2).2) from rfl]
    simp only [numStop_fracPart h, numStop_expPart h]
    rfl
  · obtain ⟨d, ds, hdds, hd0⟩ := natDigits_pos_head n (by omega)
    have hdig : isDigit10 d = true :=
      natDigits_all_digits n d (by rw [hdds]; exact List.mem_cons_self d ds)
    have hds : ∀ c ∈ ds, isDigit10 c = true := fun c hc =>
      natDigits_all_digits n c (by rw [hdds]; exact List.mem_cons_of_mem d hc)
    have htw : (d :: (ds ++ rest)).takeWhile isDigit10 = d :: ds := by
      rw [List.takeWhile_cons_of_pos hdig, takeWhile_append_all hds, numStop_takeWhile h,
        List.append_nil]
    have hdw : (d :: (ds ++ rest)).dropWhile isDigit10 = rest := by
      rw [List.dropWhile_cons_of_pos hdig, dropWhile_append_all hds, numStop_dropWhile h]
    rw [hdds, List.cons_append]
    simp only [parseNumMag, if_pos hdig, if_neg hd0, htw, hdw, numStop_fracPart h,
      numStop_expPart h]

/-- Value parse of the literal `true`. -/
theorem parseValue_true (f : Nat) (X : Str) :
    parseValue (f + 1) ('t' :: 'r' :: 'u' :: 'e' :: X) = some (Json.bool true, X) := rfl

/-- Value parse of the literal `false`. -/
theorem parseValue_false (f : Nat) (X : Str) :
    parseValue (f + 1) ('f' :: 'a' :: 'l' :: 's' :: 'e' :: X) = some (Json.bool false, X) := rfl

/-- Value parse of the literal `null`. -/
theorem parseValue_null (f : Nat) (X : Str) :
    parseValue (f + 1) ('n' :: 'u' :: 'l' :: 'l' :: X) = some (Json.null, X) := rfl

/-- Value parse dispatch on an opening quote. -/
theorem parseValue_quoteHead (f : Nat) (X : Str) :
    parseValue (f + 1) ('"' :: X) =
      (match parseStringBody (X.length + 1) X with
       | some (s, rest) => some (Json.str s, rest)
       | none => none) := rfl

/-- Value parse dispatch on a digit head. -/
theorem parseValue_digitHead {f : Nat} {d : Char} {X : Str} (h : isDigit10 d = true) :
    parseValue (f + 1) (d :: X) = parseNumMag false (d :: X) := by
  have h1 : ¬ d = '{' := digit_ne_of_toNat h (Or.inr (by decide))
  have h2 : ¬ d = '[' := digit_ne_of_toNat h (Or.inr (by decide))
  have h3 : ¬ d = '"' := digit_ne_of_toNat h (Or.inl (by decide))
  simp only [parseValue, skipWs_cons_nonws (digit_not_wsJ h), if_neg h1, if_neg h2, if_neg h3,
    if_pos h]

/-- Value parse dispatch on a minus sign followed by a digit. -/
theorem parseValue_negNumHead {f : Nat} {d : Char} {X : Str} (h : isDigit10 d = true) :
    parseValue (f + 1) ('-' :: d :: X) = parseNumMag true (d :: X) := by
  have hI : startsWithL ("Infinity".toList) (d :: X) = false := by
    rw [show ("Infinity".toList) = 'I' :: ("nfinity".toList) from rfl]
    exact startsWithL_cons_ne fun hh =>
      digit_ne_of_toNat h (Or.inr (by decide)) hh.symm
  rw [show parseValue (f + 1) ('-' :: d :: X) =
    (if startsWithL ("Infinity".toList) (d :: X) = true then some (Json.inf true, (d :: X).drop 8)
     else parseNumMag true (d :: X)) from rfl, hI]
  simp

/-- A leading run of whitespace does not change a value parse. -/
theorem parseValue_ws_prefix {f : Nat} {w cs : Str} (h : ∀ c ∈ w, isWsJ c = true) :
    parseValue (f + 1) (w ++ cs) = parseValue (f + 1) cs := by
  simp only [parseValue, skipWs_ws_append h]

/-- A serialized primitive parses back to its JSON value, given a
number-stopping remainder. -/
theorem parseValue_serPrim (f : Nat) (v : Prim) (rest : Str) (h : numStopAt rest) :
    parseValue (f + 1) (serPrim v ++ rest) = some (objOf.primJson v, rest) := by
  cases v with
  | str s =>
    have hshape : serPrim (Prim.str s) ++ rest = '"' :: (escStr s ++ '"' :: rest) := by
      simp [serPrim]
    have hfuel : s.length < (escStr s ++ '"' :: rest).length + 1 := by
      have := escStr_length s
      simp only [List.length_append, List.length_cons]
      omega
    rw [hshape, parseValue_quoteHead, parseStringBody_escape s _ rest hfuel]
    rfl
  | int n =>
    by_cases hn : n < 0
    · have hshape : serPrim (Prim.int n) ++ rest = '-' :: (natDigits n.natAbs ++ rest) := by
        simp [serPrim, intDigits, if_pos hn]
      obtain ⟨d, ds, hdds, hdig⟩ := natDigits_cons n.natAbs
      rw [hshape, hdds, List.cons_append, parseValue_negNumHead hdig, ← List.cons_append,
        ← hdds, parseNumMag_natDigits true n.natAbs rest h]
      simp [objOf.primJson, hn]
    · have hshape : serPrim (Prim.int n) ++ rest = natDigits n.natAbs ++ rest := by
        simp [serPrim, intDigits, if_neg hn]
      obtain ⟨d, ds, hdds, hdig⟩ := natDigits_cons n.natAbs
      rw [hshape, hdds, List.cons_append, parseValue_digitHead hdig, ← List.cons_append,
        ← hdds, parseNumMag_natDigits false n.natAbs rest h]
      simp [objOf.primJson, hn]
  | bool b =>
    cases b with
    | false =>
      rw [show serPrim (Prim.bool false) ++ rest = 'f' :: 'a' :: 'l' :: 's' :: 'e' :: rest
        from rfl, parseValue_false]
      rfl
    | true =>
      rw [show serPrim (Prim.bool true) ++ rest = 't' :: 'r' :: 'u' :: 'e' :: rest from rfl,
        parseValue_true]
      rfl
  | null =>
    rw [show serPrim Prim.null ++ rest = 'n' :: 'u' :: 'l' :: 'l' :: rest from rfl,
      parseValue_null]
    rfl

/-- One-step unfolding of the value parser. -/
theorem parseValue_succ (f : Nat) (cs : Str) :
    parseValue (f + 1) cs =
      (match skipWs cs with
       | [] => none
       | c :: r =>
         if c = '{' then
           if headIs '}' (skipWs r) then some (Json.obj [], (skipWs r).tail)
           else
             match parseMembers f r with
             | some (ms, rest) => some (Json.obj (dedupKV ms), rest)
             | none => none
         else if c = '[' then
           if headIs ']' (skipWs r) then some (Json.arr [], (skipWs r).tail)
           else
             match parseItems f r with
             | some (xs, rest) => some (Json.arr xs, rest)
             | none => none
         else if c = '"' then
           match parseStringBody (r.length + 1) r with
           | some (s, rest) => some (Json.str s, rest)
           | none => none
         else if isDigit10 c then parseNumMag false (c :: r)
         else if c = '-' then
           if startsWithL ("Infinity".toList) r then some (Json.inf true, r.drop 8)
           else parseNumMag true r
         else if startsWithL ("true".toList) (c :: r) then some (Json.bool true, r.drop 3)
         else if startsWithL ("false".toList) (c :: r) then some (Json.bool false, r.drop 4)
         else if startsWithL ("null".toList) (c :: r) then some (Json.null, r.drop 3)
         else if startsWithL ("NaN".toList) (c :: r) then some (Json.nan, r.drop 2)
         else if startsWithL ("Infinity".toList) (c :: r) then some (Json.inf false, r.drop 7)
         else none) := rfl

/-- One-step unfolding of the array-items parser. -/
theorem parseItems_succ (f : Nat) (cs : Str) :
    parseItems (f + 1) cs =
      (match parseValue f cs with
       | some (v, r) =>
         match skipWs r with
         | [] => none
         | c :: r2 =>
           if c = ',' then
             match parseItems f r2 with
             | some (xs, rest) => some (v :: xs, rest)
             | none => none
           else if c = ']' then some ([v], r2)
           else none
       | none => none) := rfl

/-- One-step unfolding of the object-members parser. -/
theorem parseMembers_succ (f : Nat) (cs : Str) :
    parseMembers (f + 1) cs =
      (match skipWs cs with
       | [] => none
       | c :: r =>
         if c = '"' then
           match parseStringBody (r.length + 1) r with
           | some (k, r1) =>
             match skipWs r1 with
             | [] => none
             | c2 :: r2 =>
               if c2 = ':' then
                 match parseValue f r2 with
                 | some (v, r3) =>
                   match skipWs r3 with
                   | [] => none
                   | c3 :: r4 =>
                     if c3 = ',' then
                       match parseMembers f r4 with
                       | some (ms, rest) => some ((k, v) :: ms, rest)
                       | none => none
                     else if c3 = '}' then some ([(k, v)], r4)
                     else none
                 | none => none
               else none
           | none => none
         else none) := rfl

/-- Fresh-key insertion appends. -/
theorem insertKV_fresh : ∀ (acc : List (Str × Json)) (kv : Str × Json),
    kv.1 ∉ acc.map Prod.fst → insertKV acc kv = acc ++ [kv] := by
  intro acc
  induction acc with
  | nil => intro kv _; rfl
  | cons a as ih =>
    intro kv h
    simp only [List.map_cons, List.mem_cons, not_or] at h
    rcases a with ⟨k1, v1⟩
    rcases kv with ⟨k, v⟩
    simp only [insertKV, if_neg (show ¬ k1 = k from fun hh => h.1 hh.symm)]
    rw [ih (k, v) h.2]
    rfl

/-- Folding dict insertion over members with pairwise distinct keys, starting
from a prefix of held entries, appends them in order. -/
theorem dedupKV_foldl : ∀ (ms acc : List (Str × Json)),
    ((acc ++ ms).map Prod.fst).Nodup → List.foldl insertKV acc ms = acc ++ ms := by
  intro ms
  induction ms with
  | nil => intro acc _; simp
  | cons m ms' ih =>
    intro acc h
    rw [List.foldl_cons]
    have hfresh : m.1 ∉ acc.map Prod.fst := by
      intro hmem
      have hnd := h
      simp only [List.map_append, List.map_cons] at hnd
      exact (List.nodup_append.1 hnd).2.2 hmem (List.mem_cons_self m.1 _)
    rw [insertKV_fresh acc m hfresh]
    have hshape : (acc ++ [m]) ++ ms' = acc ++ m :: ms' := by simp
    rw [ih (acc ++ [m]) (by rw [hshape]; exact h), hshape]

/-- The dict built from members with pairwise distinct keys is the member
list itself. -/
theorem dedupKV_nodup {ms : List (Str × Json)} (h : (ms.map Prod.fst).Nodup) :
    dedupKV ms = ms := by
  unfold dedupKV
  have := dedupKV_foldl ms [] (by simpa using h)
  simpa using this

/-- Parsing back the serialized member lines of a non-empty record: given an
all-whitespace prefix and the closing newline-indent-brace suffix, the
members parse to the record's key-value pairs with the remainder untouched. -/
theorem parseMembers_roundtrip :
    ∀ (e : Entry) (f ind ind2 : Nat) (w rest : Str),
      e ≠ [] → e.length + 1 < f → (∀ c ∈ w, isWsJ c = true) →
      parseMembers f (w ++ (serMembers ind e ++ '\n' :: (pad ind2 ++ '}' :: rest))) =
        some (e.map fun kv => (kv.1, objOf.primJson kv.2), rest) := by
  intro e
  induction e with
  | nil => intro f ind ind2 w rest hne; exact absurd rfl hne
  | cons kv ms ih =>
    intro f ind ind2 w rest _ hf hw
    rcases f with _ | g
    · omega
    rcases g with _ | g'
    · simp only [List.length_cons] at hf; omega
    cases ms with
    | nil =>
      have hshape : w ++ (serMembers ind [kv] ++ '\n' :: (pad ind2 ++ '}' :: rest)) =
          w ++ (pad ind ++ '"' :: (escStr kv.1 ++ '"' ::
            (':' :: (' ' :: (serPrim kv.2 ++ '\n' :: (pad ind2 ++ '}' :: rest)))))) := by
        simp [serMembers, serMember]
      rw [hshape]
      have h1 : skipWs (w ++ (pad ind ++ '"' :: (escStr kv.1 ++ '"' ::
          (':' :: (' ' :: (serPrim kv.2 ++ '\n' :: (pad ind2 ++ '}' :: rest))))))) =
          '"' :: (escStr kv.1 ++ '"' ::
            (':' :: (' ' :: (serPrim kv.2 ++ '\n' :: (pad ind2 ++ '}' :: rest))))) := by
        rw [skipWs_ws_append hw, skipWs_ws_append (pad_all_wsJ ind),
          skipWs_cons_nonws (by decide)]
      have hstr := parseStringBody_escape kv.1
        ((escStr kv.1 ++ '"' ::
          (':' :: (' ' :: (serPrim kv.2 ++ '\n' :: (pad ind2 ++ '}' :: rest))))).length + 1)
        (':' :: (' ' :: (serPrim kv.2 ++ '\n' :: (pad ind2 ++ '}' :: rest))))
        (by have := escStr_length kv.1
            simp only [List.length_append, List.length_cons]
            omega)
      have h2 : skipWs (':' :: (' ' :: (serPrim kv.2 ++ '\n' :: (pad ind2 ++ '}' :: rest)))) =
          ':' :: (' ' :: (serPrim kv.2 ++ '\n' :: (pad ind2 ++ '}' :: rest))) :=
        skipWs_cons_nonws (by decide)
      have hstop : numStopAt ('\n' :: (pad ind2 ++ '}' :: rest)) :=
        ⟨by decide, by decide, by decide, by decide⟩
      have hval : parseValue (g' + 1) (' ' :: (serPrim kv.2 ++ '\n' :: (pad ind2 ++ '}' :: rest))) =
          some (objOf.primJson kv.2, '\n' :: (pad ind2 ++ '}' :: rest)) := by
        rw [show (' ' :: (serPrim kv.2 ++ '\n' :: (pad ind2 ++ '}' :: rest))) =
          [' '] ++ (serPrim kv.2 ++ '\n' :: (pad ind2 ++ '}' :: rest)) from rfl,
          parseValue_ws_prefix (by intro c hc
                                   rw [List.mem_singleton] at hc
                                   subst hc
                                   decide)]
        exact parseValue_serPrim g' kv.2 _ hstop
      have h3 : skipWs ('\n' :: (pad ind2 ++ '}' :: rest)) = '}' :: rest := by
        rw [show ('\n' :: (pad ind2 ++ '}' :: rest)) = ['\n'] ++ (pad ind2 ++ '}' :: rest)
          from rfl, skipWs_ws_append (by intro c hc
                                         rw [List.mem_singleton] at hc
                                         subst hc
                                         decide),
          skipWs_ws_append (pad_all_wsJ ind2), skipWs_cons_nonws (by decide)]
      rw [parseMembers_succ]
      simp only [h1, eq_self_iff_true, if_true, hstr, h2, hval, h3,
        eq_false (by decide : ¬ ('}' : Char) = ','), if_false, List.map_cons, List.map_nil]
    | cons kv2 ms' =>
      have hshape : w ++ (serMembers ind (kv :: kv2 :: ms') ++
            '\n' :: (pad ind2 ++ '}' :: rest)) =
          w ++ (pad ind ++ '"' :: (escStr kv.1 ++ '"' ::
            (':' :: (' ' :: (serPrim kv.2 ++ ',' :: ('\n' :: (serMembers ind (kv2 :: ms') ++
              '\n' :: (pad ind2 ++ '}' :: rest)))))))) := by
        simp [serMembers, serMember]
      rw [hshape]
      have h1 : skipWs (w ++ (pad ind ++ '"' :: (escStr kv.1 ++ '"' ::
          (':' :: (' ' :: (serPrim kv.2 ++ ',' :: ('\n' :: (serMembers ind (kv2 :: ms') ++
            '\n' :: (pad ind2 ++ '}' :: rest))))))))) =
          '"' :: (escStr kv.1 ++ '"' ::
            (':' :: (' ' :: (serPrim kv.2 ++ ',' :: ('\n' :: (serMembers ind (kv2 :: ms') ++
              '\n' :: (pad ind2 ++ '}' :: rest))))))) := by
        rw [skipWs_ws_append hw, skipWs_ws_append (pad_all_wsJ ind),
          skipWs_cons_nonws (by decide)]
      have hstr := parseStringBody_escape kv.1
        ((escStr kv.1 ++ '"' ::
          (':' :: (' ' :: (serPrim kv.2 ++ ',' :: ('\n' :: (serMembers ind (kv2 :: ms') ++
            '\n' :: (pad ind2 ++ '}' :: rest))))))).length + 1)
        (':' :: (' ' :: (serPrim kv.2 ++ ',' :: ('\n' :: (serMembers ind (kv2 :: ms') ++
          '\n' :: (pad ind2 ++ '}' :: rest))))))
        (by have := escStr_length kv.1
            simp only [List.length_append, List.length_cons]
            omega)
      have h2 : skipWs (':' :: (' ' :: (serPrim kv.2 ++ ',' ::
          ('\n' :: (serMembers ind (kv2 :: ms') ++ '\n' :: (pad ind2 ++ '}' :: rest)))))) =
          ':' :: (' ' :: (serPrim kv.2 ++ ',' ::
            ('\n' :: (serMembers ind (kv2 :: ms') ++ '\n' :: (pad ind2 ++ '}' :: rest))))) :=
        skipWs_cons_nonws (by decide)
      have hstop : numStopAt (',' :: ('\n' :: (serMembers ind (kv2 :: ms') ++
          '\n' :: (pad ind2 ++ '}' :: rest)))) :=
        ⟨by decide, by decide, by decide, by decide⟩
      have hval : parseValue (g' + 1) (' ' :: (serPrim kv.2 ++ ',' ::
          ('\n' :: (serMembers ind (kv2 :: ms') ++ '\n' :: (pad ind2 ++ '}' :: rest))))) =
          some (objOf.primJson kv.2, ',' :: ('\n' :: (serMembers ind (kv2 :: ms') ++
            '\n' :: (pad ind2 ++ '}' :: rest)))) := by
        rw [show (' ' :: (serPrim kv.2 ++ ',' :: ('\n' :: (serMembers ind (kv2 :: ms') ++
            '\n' :: (pad ind2 ++ '}' :: rest))))) =
          [' '] ++ (serPrim kv.2 ++ ',' :: ('\n' :: (serMembers ind (kv2 :: ms') ++
            '\n' :: (pad ind2 ++ '}' :: rest)))) from rfl,
          parseValue_ws_prefix (by intro c hc
                                   rw [List.mem_singleton] at hc
                                   subst hc
                                   decide)]
        exact parseValue_serPrim g' kv.2 _ hstop
      have h3 : skipWs (',' :: ('\n' :: (serMembers ind (kv2 :: ms') ++
          '\n' :: (pad ind2 ++ '}' :: rest)))) =
          ',' :: ('\n' :: (serMembers ind (kv2 :: ms') ++
            '\n' :: (pad ind2 ++ '}' :: rest))) :=
        skipWs_cons_nonws (by decide)
      have hrec : parseMembers (g' + 1) ('\n' :: (serMembers ind (kv2 :: ms') ++
          '\n' :: (pad ind2 ++ '}' :: rest))) =
          some ((kv2 :: ms').map fun p => (p.1, objOf.primJson p.2), rest) := by
        rw [show ('\n' :: (serMembers ind (kv2 :: ms') ++ '\n' :: (pad ind2 ++ '}' :: rest))) =
          ['\n'] ++ (serMembers ind (kv2 :: ms') ++ '\n' :: (pad ind2 ++ '}' :: rest))
          from rfl]
        refine ih (g' + 1) ind ind2 ['\n'] rest (by simp) ?_ ?_
        · simp only [List.length_cons] at hf ⊢
          omega
        · intro c hc
          rw [List.mem_singleton] at hc
          subst hc
          decide
      rw [parseMembers_succ]
      simp only [h1, eq_self_iff_true, if_true, hstr, h2, hval, h3, hrec, List.map_cons]

/-- A serialized record starts with an opening brace. -/
theorem serEntry_head (ind : Nat) (e : Entry) : ∃ Z, serEntry ind e = '{' :: Z := by
  cases e with
  | nil => exact ⟨['}'], rfl⟩
  | cons kv ms =>
    exact ⟨'\n' :: (serMembers (ind + 1) (kv :: ms) ++ '\n' :: (pad ind ++ ['}'])),
      by simp [serEntry]⟩

/-- The member lines of a non-empty record start with indentation and a
quote. -/
theorem serMembers_head (ind : Nat) (kv : Str × Prim) (ms : Entry) :
    ∃ Z, serMembers ind (kv :: ms) = pad ind ++ '"' :: Z := by
  cases ms with
  | nil =>
    exact ⟨escStr kv.1 ++ '"' :: ':' :: ' ' :: serPrim kv.2, by simp [serMembers, serMember]⟩
  | cons kv2 ms' =>
    exact ⟨escStr kv.1 ++ '"' :: ':' :: ' ' ::
      (serPrim kv.2 ++ ',' :: '\n' :: serMembers ind (kv2 :: ms')),
      by simp [serMembers, serMember]⟩

/-- A serialized record parses back to its JSON object, given distinct keys,
an all-whitespace prefix and enough fuel. -/
theorem parseValue_serEntry (e : Entry) (f ind : Nat) (w rest : Str)
    (hf : e.length + 2 < f) (hw : ∀ c ∈ w, isWsJ c = true) (hk : keysNodup e) :
    parseValue f (w ++ (serEntry ind e ++ rest)) = some (objOf e, rest) := by
  rcases f with _ | g
  · omega
  cases e with
  | nil =>
    have hshape : w ++ (serEntry ind [] ++ rest) = w ++ ('{' :: '}' :: rest) := by
      simp [serEntry]
    rw [hshape, parseValue_succ]
    have h1 : skipWs (w ++ ('{' :: '}' :: rest)) = '{' :: '}' :: rest := by
      rw [skipWs_ws_append hw, skipWs_cons_nonws (by decide)]
    have h2 : headIs '}' (skipWs ('}' :: rest)) = true := by
      rw [skipWs_cons_nonws (by decide)]
      rfl
    have h3 : (skipWs ('}' :: rest)).tail = rest := by
      rw [skipWs_cons_nonws (by decide)]
      rfl
    simp only [h1, eq_self_iff_true, if_true, h2, h3]
    rfl
  | cons kv ms =>
    obtain ⟨Z, hZ⟩ := serMembers_head (ind + 1) kv ms
    have hshape : w ++ (serEntry ind (kv :: ms) ++ rest) =
        w ++ ('{' :: ('\n' :: (serMembers (ind + 1) (kv :: ms) ++
          '\n' :: (pad ind ++ '}' :: rest)))) := by
      simp [serEntry]
    rw [hshape, parseValue_succ]
    have h1 : skipWs (w ++ ('{' :: ('\n' :: (serMembers (ind + 1) (kv :: ms) ++
        '\n' :: (pad ind ++ '}' :: rest))))) =
        '{' :: ('\n' :: (serMembers (ind + 1) (kv :: ms) ++
          '\n' :: (pad ind ++ '}' :: rest))) := by
      rw [skipWs_ws_append hw, skipWs_cons_nonws (by decide)]
    have h2 : skipWs ('\n' :: (serMembers (ind + 1) (kv :: ms) ++
        '\n' :: (pad ind ++ '}' :: rest))) =
        '"' :: (Z ++ '\n' :: (pad ind ++ '}' :: rest)) := by
      rw [hZ, show ('\n' :: ((pad (ind + 1) ++ '"' :: Z) ++
          '\n' :: (pad ind ++ '}' :: rest))) =
        ['\n'] ++ (pad (ind + 1) ++ ('"' :: (Z ++ '\n' :: (pad ind ++ '}' :: rest))))
        from by simp,
        skipWs_ws_append (by intro c hc
                             rw [List.mem_singleton] at hc
                             subst hc
                             decide),
        skipWs_ws_append (pad_all_wsJ (ind + 1)), skipWs_cons_nonws (by decide)]
    have h3 : headIs '}' (skipWs ('\n' :: (serMembers (ind + 1) (kv :: ms) ++
        '\n' :: (pad ind ++ '}' :: rest)))) = false := by
      rw [h2]
      rfl
    have hmem := parseMembers_roundtrip (kv :: ms) g (ind + 1) ind ['\n'] rest
      (by simp) (by simp only [List.length_cons] at hf ⊢; omega)
      (by intro c hc
          rw [List.mem_singleton] at hc
          subst hc
          decide)
    rw [show (['\n'] : Str) ++ (serMembers (ind + 1) (kv :: ms) ++
      '\n' :: (pad ind ++ '}' :: rest)) =
      '\n' :: (serMembers (ind + 1) (kv :: ms) ++ '\n' :: (pad ind ++ '}' :: rest))
      from rfl] at hmem
    have hpairs : (((kv :: ms).map fun p => (p.1, objOf.primJson p.2)).map Prod.fst).Nodup := by
      have hsame : ((kv :: ms).map fun p => (p.1, objOf.primJson p.2)).map Prod.fst =
          (kv :: ms).map Prod.fst := by
        simp [List.map_map]
      rw [hsame]
      exact hk
    simp only [h1, eq_self_iff_true, if_true, h3, Bool.false_eq_true, if_false, hmem,
      dedupKV_nodup hpairs]
    rfl

/-- Member lines are at least as long as the member count. -/
theorem serMembers_len (ind : Nat) : ∀ e : Entry, e.length ≤ (serMembers ind e).length := by
  intro e
  induction e with
  | nil => simp [serMembers]
  | cons kv ms ih =>
    cases ms with
    | nil =>
      simp only [serMembers, serMember, List.length_cons, List.length_append, List.length_nil]
      omega
    | cons kv2 ms' =>
      simp only [serMembers, serMember, List.length_append, List.length_cons] at ih ⊢
      omega

/-- A serialized record is at least as long as its member count. -/
theorem serEntry_len (ind : Nat) (e : Entry) : e.length ≤ (serEntry ind e).length := by
  cases e with
  | nil => simp [serEntry]
  | cons kv ms =>
    have := serMembers_len (ind + 1) (kv :: ms)
    simp only [serEntry, List.isEmpty_cons, if_neg (by decide : ¬ false = true),
      List.length_cons, List.length_append] at this ⊢
    omega

/-- The tail part of the ledger dominates the fuel needed for its records. -/
theorem restPart_len : ∀ xs : List Entry, entriesFuel xs ≤ (restPart xs).length + 1 := by
  intro xs
  induction xs with
  | nil => simp [entriesFuel, restPart]
  | cons e es ih =>
    have := serEntry_len 0 e
    simp only [entriesFuel, restPart, List.length_cons, List.length_append] at ih ⊢
    omega

/-- Parsing back the serialized items of the ledger array: the first record
at its own indentation, the later ones as spliced by the appends, ending at
the closing bracket. -/
theorem parseItems_roundtrip :
    ∀ (es : List Entry) (x : Entry) (f ind : Nat) (w rest : Str),
      entriesFuel (x :: es) ≤ f → (∀ c ∈ w, isWsJ c = true) →
      keysNodup x → (∀ e ∈ es, keysNodup e) →
      parseItems f (w ++ (serEntry ind x ++ '\n' :: (restPart es ++ ']' :: rest))) =
        some (objOf x :: es.map objOf, rest) := by
  intro es
  induction es with
  | nil =>
    intro x f ind w rest hf hw hkx _
    rcases f with _ | g
    · simp [entriesFuel] at hf
    rw [parseItems_succ]
    have hval := parseValue_serEntry x g ind w ('\n' :: (restPart [] ++ ']' :: rest))
      (by simp only [entriesFuel] at hf; omega) hw hkx
    have h2 : skipWs ('\n' :: (restPart [] ++ ']' :: rest)) = ']' :: rest := by
      rw [show ('\n' :: (restPart [] ++ ']' :: rest)) = ['\n'] ++ (']' :: rest) from by
          simp [restPart],
        skipWs_ws_append (by intro c hc
                             rw [List.mem_singleton] at hc
                             subst hc
                             decide),
        skipWs_cons_nonws (by decide)]
    simp only [hval, h2, eq_false (by decide : ¬ (']' : Char) = ','), if_false,
      eq_self_iff_true, if_true, List.map_nil]
  | cons e2 es' ih =>
    intro x f ind w rest hf hw hkx hks
    rcases f with _ | g
    · simp [entriesFuel] at hf
    rw [parseItems_succ]
    have hshape : restPart (e2 :: es') ++ ']' :: rest =
        ',' :: ('\n' :: (serEntry 0 e2 ++ '\n' :: (restPart es' ++ ']' :: rest))) := by
      simp [restPart]
    have hval := parseValue_serEntry x g ind w
      ('\n' :: (restPart (e2 :: es') ++ ']' :: rest))
      (by simp only [entriesFuel] at hf; omega) hw hkx
    have h2 : skipWs ('\n' :: (restPart (e2 :: es') ++ ']' :: rest)) =
        ',' :: ('\n' :: (serEntry 0 e2 ++ '\n' :: (restPart es' ++ ']' :: rest))) := by
      rw [hshape, show ('\n' :: (',' :: ('\n' :: (serEntry 0 e2 ++
          '\n' :: (restPart es' ++ ']' :: rest))))) =
        ['\n'] ++ (',' :: ('\n' :: (serEntry 0 e2 ++ '\n' :: (restPart es' ++ ']' :: rest))))
        from rfl,
        skipWs_ws_append (by intro c hc
                             rw [List.mem_singleton] at hc
                             subst hc
                             decide),
        skipWs_cons_nonws (by decide)]
    have hrec := ih e2 g 0 ['\n'] rest
      (by simp only [entriesFuel] at hf ⊢; omega)
      (by intro c hc
          rw [List.mem_singleton] at hc
          subst hc
          decide)
      (hks e2 (List.mem_cons_self e2 es'))
      (fun e he => hks e (List.mem_cons_of_mem e2 he))
    rw [show (['\n'] : Str) ++ (serEntry 0 e2 ++ '\n' :: (restPart es' ++ ']' :: rest)) =
      '\n' :: (serEntry 0 e2 ++ '\n' :: (restPart es' ++ ']' :: rest)) from rfl] at hrec
    simp only [hval, h2, eq_self_iff_true, if_true, hrec, List.map_cons]

/-- The ledger file produced by the appends parses back (via the `json.load`
model) as the JSON array of the appended records in order. -/
theorem json_load_contentsAfter (x : Entry) (xs : List Entry)
    (hk : keysNodup x) (hks : ∀ e ∈ xs, keysNodup e) :
    json_load (contentsAfter (x :: xs)) = some (Json.arr (objOf x :: xs.map objOf)) := by
  have hshape : contentsAfter (x :: xs) =
      '[' :: ('\n' :: (pad 1 ++ (serEntry 1 x ++ '\n' ::
        (restPart xs ++ ']' :: (if xs.isEmpty then ['\n'] else []))))) := by
    simp [contentsAfter]
  obtain ⟨Z, hZ⟩ := serEntry_head 1 x
  have h2 : skipWs ('\n' :: (pad 1 ++ (serEntry 1 x ++ '\n' ::
      (restPart xs ++ ']' :: (if xs.isEmpty then ['\n'] else []))))) =
      '{' :: (Z ++ '\n' :: (restPart xs ++ ']' :: (if xs.isEmpty then ['\n'] else []))) := by
    rw [hZ, show ('\n' :: (pad 1 ++ (('{' :: Z) ++ '\n' ::
        (restPart xs ++ ']' :: (if xs.isEmpty then ['\n'] else []))))) =
      ['\n'] ++ (pad 1 ++ ('{' :: (Z ++ '\n' ::
        (restPart xs ++ ']' :: (if xs.isEmpty then ['\n'] else []))))) from by simp,
      skipWs_ws_append (by intro c hc
                           rw [List.mem_singleton] at hc
                           subst hc
                           decide),
      skipWs_ws_append (pad_all_wsJ 1), skipWs_cons_nonws (by decide)]
  have h3 : headIs ']' (skipWs ('\n' :: (pad 1 ++ (serEntry 1 x ++ '\n' ::
      (restPart xs ++ ']' :: (if xs.isEmpty then ['\n'] else [])))))) = false := by
    rw [h2]
    rfl
  have hfuel : entriesFuel (x :: xs) ≤ (contentsAfter (x :: xs)).length := by
    have e1 := serEntry_len 1 x
    have e2 := restPart_len xs
    rw [hshape]
    simp only [entriesFuel, List.length_cons, List.length_append, pad, List.length_replicate]
    omega
  have hitems := parseItems_roundtrip xs x (contentsAfter (x :: xs)).length 1 ('\n' :: pad 1)
    (if xs.isEmpty then ['\n'] else []) hfuel
    (by intro c hc
        rcases List.mem_cons.1 hc with hc | hc
        · subst hc; decide
        · exact pad_all_wsJ 1 c hc)
    hk hks
  rw [show (('\n' :: pad 1) ++ (serEntry 1 x ++ '\n' ::
      (restPart xs ++ ']' :: (if xs.isEmpty then ['\n'] else [])))) =
    '\n' :: (pad 1 ++ (serEntry 1 x ++ '\n' ::
      (restPart xs ++ ']' :: (if xs.isEmpty then ['\n'] else [])))) from by simp] at hitems
  have h4 : skipWs (if xs.isEmpty then ['\n'] else ([] : Str)) = [] := by
    by_cases hxe : xs.isEmpty
    · rw [if_pos hxe]
      decide
    · rw [if_neg hxe]
      rfl
  have h1 : skipWs (contentsAfter (x :: xs)) = contentsAfter (x :: xs) := by
    rw [hshape]
    exact skipWs_cons_nonws (by decide)
  rw [hshape] at hitems
  unfold json_load
  rw [parseValue_succ, h1, hshape]
  simp only [eq_false (by decide : ¬ ('[' : Char) = '{'), if_false, eq_self_iff_true, if_true,
    h3, Bool.false_eq_true, hitems, h4]
  simp

/-- Claim C2 (amended): for every N at least 1 and every sequence of N
records (Python dicts, so with pairwise distinct keys) whose
`json.dumps(..., ensure_ascii=False)` output is ASCII, calling
`append_json_array` N times sequentially starting from an absent ledger file
raises nothing and yields a byte file that `json.load` parses as a JSON
array of exactly those N records' objects, in append order.  With zero
appends the file is never created, and for records with non-ASCII text the
second append's write position drifts below the closing bracket (see the
C10 counterexample), so the ASCII restriction is necessary. -/
theorem C2_ledger_appends (x : Entry) (xs : List Entry)
    (hk : ∀ e ∈ x :: xs, keysNodup e) (ha : ∀ e ∈ x :: xs, entryAscii e = true) :
    appendAll (x :: xs) none = Except.ok (some (utf8 (contentsAfter (x :: xs)))) ∧
    json_loadb (utf8 (contentsAfter (x :: xs))) = some (Json.arr ((x :: xs).map objOf)) := by
  have hca : asciiS (contentsAfter (x :: xs)) := contentsAfter_ascii _ ha
  have hb : utf8 (contentsAfter (x :: xs)) = (contentsAfter (x :: xs)).map Char.toNat :=
    utf8_ascii hca
  have hball : ∀ n ∈ (contentsAfter (x :: xs)).map Char.toNat, n < 128 := by
    intro n hn
    rcases List.mem_map.1 hn with ⟨c, hc, rfl⟩
    exact hca c hc
  refine ⟨appendAll_fromNoneB x xs (ha x (List.mem_cons_self x xs))
    (fun e he => ha e (List.mem_cons_of_mem x he)), ?_⟩
  obtain ⟨R, hR⟩ : ∃ R, contentsAfter (x :: xs) = '[' :: '\n' :: ' ' :: ' ' :: R := by
    refine ⟨serEntry 1 x ++ '\n' :: (restPart xs ++ ']' ::
      (if xs.isEmpty then ['\n'] else [])), ?_⟩
    simp [contentsAfter, pad]
  have hdet : detect_encoding ((contentsAfter (x :: xs)).map Char.toNat) = Enc.utf8 := by
    rw [hR]
    rfl
  rw [hb]
  unfold json_loadb
  rw [hdet, decodeStrict_ascii hball, asStr_map_toNat]
  show json_load (contentsAfter (x :: xs)) = _
  rw [List.map_cons]
  exact json_load_contentsAfter x xs (hk x (List.mem_cons_self x xs))
    (fun e he => hk e (List.mem_cons_of_mem x he))

/-- Witness for C2 at a concrete single-record append. -/
theorem C2_ledger_appends_witness :
    appendAll [[(("ok".toList : Str), Prim.bool true)]] none =
      Except.ok (some (utf8 (contentsAfter [[(("ok".toList : Str), Prim.bool true)]]))) ∧
    json_loadb (utf8 (contentsAfter [[(("ok".toList : Str), Prim.bool true)]])) =
      some (Json.arr ([[(("ok".toList : Str), Prim.bool true)]].map objOf)) :=
  C2_ledger_appends [(("ok".toList : Str), Prim.bool true)] []
    (by intro e he
        rw [List.mem_singleton] at he
        subst he
        unfold keysNodup
        simp)
    (by intro e he
        rw [List.mem_singleton] at he
        subst he
        decide)
